import Mathlib

/-!
Shallow embedding of the Traffic Adjustment Engine of this repository
(class TrafficData in src/api/traffic.py), together with proofs about it.

Modelling conventions:
* Python strings are Lean `String`s; character-level work uses `List Char`
  (a `String` is its list of characters).  `str.upper`, `str.strip`,
  `str.split` and whitespace are modelled over ASCII characters, which is
  the alphabet of the dataset and of driving instructions.
* Python floats are modelled as rationals (`ℚ`); `round(x, 3)` and
  `round(x, 0)` use round-half-to-even, as Python's `round` does.
* The regular expressions of the source are modelled directly:
  `re.sub(rf'\b{full}\b', abbrev, name)` for an all-word-character `full`
  replaces every maximal run of word characters equal to `full`
  (a whole-word match of such a pattern is exactly a maximal word run);
  `re.findall` is the left-to-right non-overlapping scan of the
  corresponding single-match functions, which for these patterns consume at
  least one character per match.
* The pandas data frame is a `List RawRecord` (rows in file order); the
  presence of the optional `date_count` column is the flag `hasDateCol`;
  a NaT / unparsable date is `none`.  `dict`s keyed by street name are
  association lists in insertion order, which is first-occurrence order of
  `Series.unique()`.
* `list(set(cleaned))` in the instruction parser has unspecified order in
  Python; it is modelled as first-occurrence deduplication.  No statement
  below depends on that order.
* pandas `sort_values('date_count', ascending=False)` places NaT rows last
  in their original order; among equal dates the source order is not
  specified by the code, modelled here as stable.
-/

namespace Traffic

/-- ASCII model of the regex word-character class: letters, digits, underscore. -/
def isWordChar (c : Char) : Bool := c.isAlphanum || c == '_'

/-- The regex character class used by the instruction patterns for street words. -/
def isUpperAlnum (c : Char) : Bool := ('A' ≤ c && c ≤ 'Z') || ('0' ≤ c && c ≤ '9')

/-- str.upper(), character by character. -/
def pyUpper (l : List Char) : List Char := l.map Char.toUpper

/-- str.strip(): remove leading and trailing whitespace. -/
def pyStrip (l : List Char) : List Char :=
  ((l.dropWhile Char.isWhitespace).reverse.dropWhile Char.isWhitespace).reverse

/-- Emit a finished word run: replaced by `ab` when it equals `full`. -/
def substW (full ab cur : List Char) : List Char :=
  if cur = [] then [] else if cur = full then ab else cur

/-- Scanner for `re.sub` of a whole-word pattern `full` with `full` all word
characters: replaces every maximal word-character run equal to `full`.
`cur` is the word run scanned so far. -/
def replGo (full ab : List Char) (cur : List Char) : List Char → List Char
  | [] => substW full ab cur
  | c :: cs =>
    if isWordChar c then replGo full ab (cur ++ [c]) cs
    else substW full ab cur ++ c :: replGo full ab [] cs

/-- One whole-word substitution pass of `_normalize_street_name`. -/
def replaceWordFull (full ab l : List Char) : List Char := replGo full ab [] l

/-- The abbreviations dict of `_normalize_street_name`, in insertion order. -/
def abbreviations : List (List Char × List Char) :=
  [("STREET".data, "ST".data), ("AVENUE".data, "AV".data), ("BOULEVARD".data, "BL".data),
   ("DRIVE".data, "DR".data), ("ROAD".data, "RD".data), ("LANE".data, "LN".data),
   ("COURT".data, "CT".data), ("PLACE".data, "PL".data), ("HIGHWAY".data, "HW".data),
   ("FREEWAY".data, "FW".data)]

/-- The `for full, abbrev in abbreviations.items(): name = re.sub(...)` loop. -/
def applyAbbrevs (l : List Char) : List Char :=
  abbreviations.foldl (fun acc p => replaceWordFull p.1 p.2 acc) l

def flushChunk (cur : List Char) : List (List Char) := if cur = [] then [] else [cur]

/-- str.split() with no argument: maximal non-whitespace chunks. -/
def pySplitGo (cur : List Char) : List Char → List (List Char)
  | [] => flushChunk cur
  | c :: cs =>
    if c.isWhitespace then flushChunk cur ++ pySplitGo [] cs
    else pySplitGo (cur ++ [c]) cs

def pySplit (l : List Char) : List (List Char) := pySplitGo [] l

/-- ' '.join(chunks). -/
def joinWs : List (List Char) → List Char
  | [] => []
  | [w] => w
  | w :: x :: rest => w ++ ' ' :: joinWs (x :: rest)

/-- ' '.join(name.split()): collapse runs of whitespace, trim the ends. -/
def collapseWs (l : List Char) : List Char := joinWs (pySplit l)

/-- TrafficData._normalize_street_name on the character list. -/
def normalizeL (street_name : List Char) : List Char :=
  if street_name = [] then []
  else collapseWs (applyAbbrevs (pyStrip (pyUpper street_name)))

/-- TrafficData._normalize_street_name: uppercase, trim, whole-word suffix
abbreviation, whitespace collapse; empty input short-circuits to "". -/
def _normalize_street_name (s : String) : String := String.mk (normalizeL s.data)

/-- The recognized two-letter street suffix tokens of the instruction patterns. -/
def suffixTokens : List (List Char) :=
  ["ST".data, "AV".data, "BL".data, "DR".data, "RD".data, "LN".data,
   "CT".data, "PL".data, "HW".data, "FW".data]

/-- Match the suffix alternation `(?:ST|AV|BL|DR|RD|LN|CT|PL|HW|FW)`:
two characters forming a recognized token. Returns the token and the rest. -/
def sfxAt : List Char → Option (List Char × List Char)
  | a :: b :: rest => if suffixTokens.contains [a, b] then some ([a, b], rest) else none
  | _ => none

/-- Match the non-capturing tail `(?:\s+(?:ST|AV|...))`: at least one
whitespace character, then a suffix token.  Returns the text after the
match.  (The suffix starts with a letter, so the greedy `\s+` always takes
the whole whitespace run.) -/
def tailWsSfx (t : List Char) : Option (List Char) :=
  if t.takeWhile Char.isWhitespace = [] then none
  else
    match sfxAt (t.dropWhile Char.isWhitespace) with
    | some (_, rest) => some rest
    | none => none

/-- The class `[A-Z0-9\s]` of the lazy capture group in patterns 1 and 2. -/
def clsGroup (c : Char) : Bool := isUpperAlnum c || c.isWhitespace

/-- The lazy group `([A-Z0-9\s]+?)` followed by `tailWsSfx`: the shortest
nonempty class prefix whose remainder matches the tail.  Returns the
captured group and the text after the whole match. -/
def tryGroup : List Char → Option (List Char × List Char)
  | [] => none
  | c :: cs =>
    if clsGroup c then
      match tailWsSfx cs with
      | some rest => some ([c], rest)
      | none =>
        match tryGroup cs with
        | some (g, rest) => some (c :: g, rest)
        | none => none
    else none

/-- Backtracking over the greedy `\s+` after the lead word: try the group
with `k` whitespace characters consumed, longest first, at least one. -/
def tryStarts (after : List Char) : ℕ → Option (List Char × List Char)
  | 0 => none
  | k + 1 =>
    match tryGroup (after.drop (k + 1)) with
    | some r => some r
    | none => tryStarts after k

def isPrefOf : List Char → List Char → Bool
  | [], _ => true
  | _ :: _, [] => false
  | a :: as, b :: bs => a == b && isPrefOf as bs

/-- Try the alternation of lead words (in pattern order) at this position:
lead, then `\s+`, then the lazy group, then the suffix tail. -/
def matchPrep (l : List Char) : List (List Char) → Option (List Char × List Char)
  | [] => none
  | lead :: moreLeads =>
    if isPrefOf lead l then
      match tryStarts (l.drop lead.length) ((l.drop lead.length).takeWhile Char.isWhitespace).length with
      | some r => some r
      | none => matchPrep l moreLeads
    else matchPrep l moreLeads

/-- Pattern 1: `(?:ONTO|ON|TO)\s+([A-Z0-9\s]+?)(?:\s+(?:ST|AV|...))`. -/
def match1 (l : List Char) : Option (List Char × List Char) :=
  matchPrep l ["ONTO".data, "ON".data, "TO".data]

/-- Pattern 2: `(?:VIA|TAKE)\s+([A-Z0-9\s]+?)(?:\s+(?:ST|AV|...))`. -/
def match2 (l : List Char) : Option (List Char × List Char) :=
  matchPrep l ["VIA".data, "TAKE".data]

/-- Pattern 3: `([A-Z0-9]+\s+(?:ST|AV|...))`.  The greedy pieces need no
backtracking: a shorter `[A-Z0-9]+` leaves a word character where `\s+`
must start, and a shorter `\s+` leaves whitespace where the suffix letter
must start. -/
def match3 (l : List Char) : Option (List Char × List Char) :=
  if l.takeWhile isUpperAlnum = [] then none
  else
    if (l.dropWhile isUpperAlnum).takeWhile Char.isWhitespace = [] then none
    else
      match sfxAt ((l.dropWhile isUpperAlnum).dropWhile Char.isWhitespace) with
      | some (s2, rest) =>
        some (l.takeWhile isUpperAlnum ++ (l.dropWhile isUpperAlnum).takeWhile Char.isWhitespace ++ s2, rest)
      | none => none

/-- re.findall: scan left to right; on a match, record the capture and
resume after the match (after the next position when a match would consume
nothing, as Python does); otherwise advance one character.  The fuel
`l.length + 1` bounds the number of scan positions. -/
def findallGo (m : List Char → Option (List Char × List Char)) : ℕ → List Char → List (List Char)
  | 0, _ => []
  | _ + 1, [] => []
  | fuel + 1, c :: cs =>
    match m (c :: cs) with
    | some (g, rest) =>
      if rest.length < cs.length + 1 then g :: findallGo m fuel rest
      else g :: findallGo m fuel cs
    | none => findallGo m fuel cs

def findall (m : List Char → Option (List Char × List Char)) (l : List Char) : List (List Char) :=
  findallGo m (l.length + 1) l

/-- First-occurrence deduplication (model of the order of `list(set(xs))`,
which Python leaves unspecified). -/
def uniqGo {α : Type} [DecidableEq α] (seen : List α) : List α → List α
  | [] => []
  | s :: rest => if s ∈ seen then uniqGo seen rest else s :: uniqGo (s :: seen) rest

def uniqDedup {α : Type} [DecidableEq α] (l : List α) : List α := uniqGo [] l

/-- TrafficData._extract_street_from_instruction. -/
def _extract_street_from_instruction (instruction : String) : List String :=
  if instruction = "" then []
  else
    let instr := pyUpper instruction.data
    let streets := findall match1 instr ++ findall match2 instr ++ findall match3 instr
    let cleaned := (streets.map normalizeL).filter (fun n => !n.isEmpty && decide (2 < n.length))
    (uniqDedup cleaned).map String.mk

/-- A row of the traffic CSV after `_load_data`: `street_name` text,
numeric `total_count` (unparsable values already coerced to 0), optional
parsed date (none = NaT). -/
structure RawRecord where
  street_name : String
  total_count : ℚ
  date_count : Option ℤ
deriving DecidableEq

/-- The cleaning `_load_data` applies to street names. -/
def cleanName (s : String) : String := String.mk (pyStrip (pyUpper s.data))

/-- TrafficData._load_data, record part: uppercase and strip every street
name.  (File reading, column validation and numeric coercion happen before
the records exist; a failed load is the empty record list.) -/
def _load_data (records : List RawRecord) : List RawRecord :=
  records.map (fun r => { r with street_name := cleanName r.street_name })

structure StreetIndexEntry where
  avg_count : ℚ
  max_count : ℚ
  min_count : ℚ
  sample_size : ℕ
deriving DecidableEq

/-!
Rational arithmetic.  The Batteries operations behind `+`, `-`, `*`, `/`
on `ℚ` are irreducible by design, so the engine's arithmetic is written
through `mkRat` (which reduces), and bridge lemmas below identify each
operation with the usual one.  This keeps every definition evaluable on
concrete inputs while the abstract proofs work with ordinary algebra.
-/

def qadd (a b : ℚ) : ℚ := mkRat (a.num * b.den + b.num * a.den) (a.den * b.den)

def qsub (a b : ℚ) : ℚ := mkRat (a.num * b.den - b.num * a.den) (a.den * b.den)

/-- sum(xs) of a list of rationals. -/
def qsum (l : List ℚ) : ℚ := l.foldr qadd 0

/-- Division of a rational by a natural number (denominators in the
engine are list lengths and powers of ten). -/
def qdivNat (a : ℚ) (n : ℕ) : ℚ := mkRat a.num (a.den * n)

/-- Multiplication of a rational by a natural number. -/
def qmulNat (a : ℚ) (n : ℕ) : ℚ := mkRat (a.num * n) a.den

def qmax (a b : ℚ) : ℚ := if a ≤ b then b else a

def qmin (a b : ℚ) : ℚ := if a ≤ b then a else b

/-- Series.mean(). -/
def meanQ (l : List ℚ) : ℚ := qdivNat (qsum l) l.length

/-- Series.max() of a nonempty series (0 is a junk value for the empty case,
which the index builder never hits). -/
def maxQ : List ℚ → ℚ
  | [] => 0
  | c :: cs => cs.foldl qmax c

def minQ : List ℚ → ℚ
  | [] => 0
  | c :: cs => cs.foldl qmin c

/-- Stable descending insertion by date key. -/
def insertDesc (x : ℤ × RawRecord) : List (ℤ × RawRecord) → List (ℤ × RawRecord)
  | [] => [x]
  | y :: ys => if x.1 ≤ y.1 then y :: insertDesc x ys else x :: y :: ys

/-- df.sort_values('date_count', ascending=False): dated rows in descending
date order (stably), NaT rows after them in original order. -/
def sortByDateDesc (g : List RawRecord) : List RawRecord :=
  (((g.filterMap (fun r => r.date_count.map (fun d => (d, r)))).foldl
      (fun acc x => insertDesc x acc) []).map Prod.snd)
    ++ g.filter (fun r => r.date_count.isNone)

/-- The per-street aggregate of `_build_street_index`: when the data frame
has a `date_count` column, the average of the 3 rows that sort first by
descending date; otherwise the mean of the whole group.  max, min and
sample size always range over the whole group. -/
def buildEntry (hasDateCol : Bool) (g : List RawRecord) : StreetIndexEntry :=
  { avg_count :=
      if hasDateCol then meanQ (((sortByDateDesc g).take 3).map (fun r => r.total_count))
      else meanQ (g.map (fun r => r.total_count)),
    max_count := maxQ (g.map (fun r => r.total_count)),
    min_count := minQ (g.map (fun r => r.total_count)),
    sample_size := g.length }

/-- The boolean-mask selection `traffic_df[traffic_df['street_name'] == name]`. -/
def groupFor (df : List RawRecord) (n : String) : List RawRecord :=
  df.filter (fun r => r.street_name == n)

/-- TrafficData._build_street_index: one entry per unique street name, in
first-occurrence order.  (An empty frame yields the empty index.) -/
def _build_street_index (hasDateCol : Bool) (df : List RawRecord) : List (String × StreetIndexEntry) :=
  (uniqDedup (df.map (fun r => r.street_name))).map
    (fun n => (n, buildEntry hasDateCol (groupFor df n)))

/-- The state of a TrafficData instance after __init__: the cleaned frame
and whether the CSV had a `date_count` column.  The street index is
derived deterministically from these. -/
structure TrafficData where
  hasDateCol : Bool
  traffic_df : List RawRecord
deriving DecidableEq

def TrafficData.street_index (td : TrafficData) : List (String × StreetIndexEntry) :=
  _build_street_index td.hasDateCol td.traffic_df

/-- Python dict lookup on an association list (first matching key). -/
def lookupA {β : Type} (k : String) : List (String × β) → Option β
  | [] => none
  | p :: ps => if p.1 == k then some p.2 else lookupA k ps

/-- Python `needle in hay` on strings: substring test. -/
def isSubstrOf (a : List Char) : List Char → Bool
  | [] => isPrefOf a []
  | c :: bs => isPrefOf a (c :: bs) || isSubstrOf a bs

def strContains (hay needle : String) : Bool := isSubstrOf needle.data hay.data

/-- TrafficData.get_traffic_count: exact index hit first, else the mean of
the averages of all keys related to the query by substring in either
direction, else none. -/
def get_traffic_count (td : TrafficData) (street_name : String) : Option ℚ :=
  if td.traffic_df = [] then none
  else
    let normalized := _normalize_street_name street_name
    match lookupA normalized td.street_index with
    | some e => some e.avg_count
    | none =>
      let found := (td.street_index.filter
        (fun p => strContains p.1 normalized || strContains normalized p.1)).map
          (fun p => p.2.avg_count)
      if found = [] then none else some (meanQ found)

inductive TrafficLevel
  | very_low | low | moderate | high | very_high | unknown
deriving DecidableEq

/-- The CONGESTION_MULTIPLIERS table.  The dict has no 'unknown' key and
the code never looks one up; the value 1 here is the sentinel multiplier
that accompanies the unknown level. -/
def CONGESTION_MULTIPLIERS : TrafficLevel → ℚ
  | .very_low => mkRat 90 100
  | .low => mkRat 95 100
  | .moderate => 1
  | .high => mkRat 115 100
  | .very_high => mkRat 130 100
  | .unknown => 1

/-- The threshold ladder of get_traffic_level over TRAFFIC_THRESHOLDS. -/
def levelOfCount (count : ℚ) : TrafficLevel :=
  if count < 3000 then .very_low
  else if count < 8000 then .low
  else if count < 15000 then .moderate
  else if count < 25000 then .high
  else .very_high

/-- TrafficData.get_traffic_level. -/
def get_traffic_level (td : TrafficData) (street_name : String) :
    TrafficLevel × ℚ × Option ℚ :=
  match get_traffic_count td street_name with
  | none => (.unknown, 1, none)
  | some count => (levelOfCount count, CONGESTION_MULTIPLIERS (levelOfCount count), some count)

/-- Round half to even to an integer (Python round): the floor when the
fractional part is below one half, the ceiling when above, the even
neighbour on a tie. -/
def roundHalfEven (q : ℚ) : ℤ :=
  if qsub q (mkRat q.floor 1) < mkRat 1 2 then q.floor
  else if mkRat 1 2 < qsub q (mkRat q.floor 1) then q.floor + 1
  else if q.floor % 2 = 0 then q.floor else q.floor + 1

/-- round(x, 3). -/
def pyRound3 (q : ℚ) : ℚ := mkRat (roundHalfEven (qmulNat q 1000)) 1000

inductive Confidence
  | low | medium | high
deriving DecidableEq

/-- The confidence ladder of calculate_route_adjustment. -/
def confidenceOf (n : ℕ) : Confidence :=
  if 5 ≤ n then .high else if 2 ≤ n then .medium else .low

/-- A route step; `step.get('instruction', '')` makes a missing
instruction the empty string. -/
structure RouteStep where
  instruction : String
deriving DecidableEq

structure StreetDetail where
  street : String
  level : TrafficLevel
  multiplier : ℚ
  count : Option ℚ
deriving DecidableEq

structure AdjustmentResult where
  multiplier : ℚ
  confidence : Confidence
  streets_matched : ℕ
  street_details : List StreetDetail
deriving DecidableEq

/-- The inner loop of calculate_route_adjustment for one step: classify
each extracted candidate and keep the non-unknown ones, in order. -/
def stepDetails (td : TrafficData) (step : RouteStep) : List StreetDetail :=
  (_extract_street_from_instruction step.instruction).filterMap (fun street =>
    match get_traffic_level td street with
    | (level, mult, count) =>
      if level ≠ TrafficLevel.unknown then some ⟨street, level, mult, count⟩ else none)

/-- street_details accumulated over all steps. -/
def collectDetails (td : TrafficData) (steps : List RouteStep) : List StreetDetail :=
  (steps.map (stepDetails td)).flatten

/-- The multipliers list accumulated alongside street_details. -/
def routeMultipliers (td : TrafficData) (steps : List RouteStep) : List ℚ :=
  (collectDetails td steps).map (fun d => d.multiplier)

/-- TrafficData.calculate_route_adjustment. -/
def calculate_route_adjustment (td : TrafficData) (route_steps : List RouteStep) :
    AdjustmentResult :=
  if route_steps = [] then ⟨1, .low, 0, []⟩
  else
    let multipliers := routeMultipliers td route_steps
    if multipliers = [] then ⟨1, .low, 0, []⟩
    else
      ⟨pyRound3 (meanQ multipliers), confidenceOf multipliers.length,
        multipliers.length, collectDetails td route_steps⟩

structure SearchEntry where
  street_name : String
  avg_count : ℤ
  traffic_level : TrafficLevel
  sample_size : ℕ
deriving DecidableEq

/-- The sort key of search_streets: (not startswith(query), -avg_count),
with the boolean encoded so that prefix matches order first. -/
def searchKey (q : String) (e : SearchEntry) : ℕ × ℤ :=
  (if isPrefOf q.data e.street_name.data then 0 else 1, -e.avg_count)

def keyLE (a b : ℕ × ℤ) : Bool :=
  decide (a.1 < b.1) || (a.1 == b.1 && decide (a.2 ≤ b.2))

/-- Stable ascending insertion by searchKey. -/
def insertSearch (q : String) (x : SearchEntry) : List SearchEntry → List SearchEntry
  | [] => [x]
  | y :: ys => if keyLE (searchKey q y) (searchKey q x) then y :: insertSearch q x ys else x :: y :: ys

/-- list.sort with key searchKey (a stable comparison sort). -/
def sortSearch (q : String) (l : List SearchEntry) : List SearchEntry :=
  l.foldl (fun acc x => insertSearch q x acc) []

/-- TrafficData.search_streets. -/
def search_streets (td : TrafficData) (query : String) (limit : ℕ) : List SearchEntry :=
  if td.traffic_df = [] || query = "" then []
  else
    let q := String.mk (pyUpper query.data)
    let found := td.street_index.filterMap (fun p =>
      if strContains p.1 q then
        some { street_name := p.1, avg_count := roundHalfEven p.2.avg_count,
               traffic_level := (get_traffic_level td p.1).1,
               sample_size := p.2.sample_size }
      else none)
    (sortSearch q found).take limit

structure StatsData where
  total_records : ℕ
  unique_streets : ℕ
  avg_traffic_count : ℤ
  max_traffic_count : ℤ
  min_traffic_count : ℤ
  date_earliest : Option ℤ
  date_latest : Option ℤ
deriving DecidableEq

def minDateOpt (df : List RawRecord) : Option ℤ :=
  (df.filterMap (fun r => r.date_count)).foldl
    (fun acc d => match acc with | none => some d | some m => some (min m d)) none

def maxDateOpt (df : List RawRecord) : Option ℤ :=
  (df.filterMap (fun r => r.date_count)).foldl
    (fun acc d => match acc with | none => some d | some m => some (max m d)) none

/-- TrafficData.get_stats: `none` is the `{'status': 'no_data'}` sentinel. -/
def get_stats (td : TrafficData) : Option StatsData :=
  if td.traffic_df = [] then none
  else
    some { total_records := td.traffic_df.length,
           unique_streets := td.street_index.length,
           avg_traffic_count := roundHalfEven (meanQ (td.traffic_df.map (fun r => r.total_count))),
           max_traffic_count := roundHalfEven (maxQ (td.traffic_df.map (fun r => r.total_count))),
           min_traffic_count := roundHalfEven (minQ (td.traffic_df.map (fun r => r.total_count))),
           date_earliest := if td.hasDateCol then minDateOpt td.traffic_df else none,
           date_latest := if td.hasDateCol then maxDateOpt td.traffic_df else none }

/-- The maximal word-character runs of a string, in order: exactly the
positions where a pattern of the shape whole-word FULL (made of word
characters) can match.  `cur` is the run in progress. -/
def wordRunsGo (cur : List Char) : List Char → List (List Char)
  | [] => flushChunk cur
  | c :: cs =>
    if isWordChar c then wordRunsGo (cur ++ [c]) cs
    else flushChunk cur ++ wordRunsGo [] cs

def wordRuns (l : List Char) : List (List Char) := wordRunsGo [] l

/-- The effect of one whole-word substitution on a single run. -/
def substRun (full ab t : List Char) : List Char := if t = full then ab else t

/-- One generic substitution step of the abbreviations fold. -/
def abbrevStep (l : List Char) (p : List Char × List Char) : List Char :=
  replaceWordFull p.1 p.2 l

/-! ### Concrete instances used by witnesses and counterexamples -/

/-- The index of testable property 8 of the spec: MAIN ST at 5000, ELM AV at 20000. -/
def exRecords : List RawRecord := [⟨"MAIN ST", 5000, none⟩, ⟨"ELM AV", 20000, none⟩]

def exTD : TrafficData := ⟨false, _load_data exRecords⟩

def exSteps : List RouteStep := [⟨"MAIN ST"⟩, ⟨"ELM AV"⟩]

def emptyTD : TrafficData := ⟨false, []⟩

def c3TD : TrafficData := ⟨false, _load_data [⟨"MAIN ST", 5000, none⟩]⟩

/-- Two raw records whose street names normalize to the same string but
clean (uppercase + strip) to different strings. -/
def c2Records : List RawRecord := [⟨"MAIN STREET", 5, none⟩, ⟨"MAIN ST", 7, none⟩]

/-- One street, four records, no parsed dates, in a dataset that has a
date column: the recency window still applies. -/
def c5Records : List RawRecord :=
  [⟨"A ST", 10, none⟩, ⟨"A ST", 20, none⟩, ⟨"A ST", 30, none⟩, ⟨"A ST", 100, none⟩]

/-- One street, four dated records already in descending date order. -/
def c5bRecords : List RawRecord :=
  [⟨"B ST", 7, some 30⟩, ⟨"B ST", 1, some 20⟩, ⟨"B ST", 4, some 10⟩, ⟨"B ST", 1000, some 5⟩]

end Traffic

namespace Traffic

/-! ### Bridges from the reducible arithmetic to the algebraic operations -/

theorem qadd_eq (a b : ℚ) : qadd a b = a + b := (Rat.add_def' a b).symm

theorem qsub_eq (a b : ℚ) : qsub a b = a - b := (Rat.sub_def' a b).symm

theorem qsum_eq (l : List ℚ) : qsum l = l.sum := by
  induction l with
  | nil => rfl
  | cons x l ih =>
    show qadd x (qsum l) = _
    rw [qadd_eq, ih, List.sum_cons]

theorem mkRat_eq_div' (n : ℤ) (d : ℕ) : mkRat n d = (n : ℚ) / (d : ℚ) := by
  rw [Rat.mkRat_eq_divInt, Rat.divInt_eq_div]
  norm_num

theorem qdivNat_eq (a : ℚ) (n : ℕ) : qdivNat a n = a / (n : ℚ) := by
  unfold qdivNat
  rw [mkRat_eq_div']
  push_cast
  rw [← div_div, Rat.num_div_den]

theorem qmulNat_eq (a : ℚ) (n : ℕ) : qmulNat a n = a * (n : ℚ) := by
  unfold qmulNat
  rw [mkRat_eq_div']
  push_cast
  conv_rhs => rw [← Rat.num_div_den a]
  rw [div_mul_eq_mul_div]

theorem meanQ_eq (l : List ℚ) : meanQ l = l.sum / (l.length : ℚ) := by
  unfold meanQ
  rw [qdivNat_eq, qsum_eq]

theorem meanQ_singleton (c : ℚ) : meanQ [c] = c := by
  rw [meanQ_eq]
  simp

theorem le_qmax_left (a b : ℚ) : a ≤ qmax a b := by
  unfold qmax
  split
  · assumption
  · exact le_refl a

theorem le_qmax_right (a b : ℚ) : b ≤ qmax a b := by
  unfold qmax
  split
  · exact le_refl b
  · exact le_of_lt (not_le.mp (by assumption))

theorem qmin_le_left (a b : ℚ) : qmin a b ≤ a := by
  unfold qmin
  split
  · exact le_refl a
  · exact le_of_lt (not_le.mp (by assumption))

theorem qmin_le_right (a b : ℚ) : qmin a b ≤ b := by
  unfold qmin
  split
  · assumption
  · exact le_refl b

theorem roundHalfEven_eq (q : ℚ) :
    roundHalfEven q =
      if q - ⌊q⌋ < 1/2 then ⌊q⌋
      else if 1/2 < q - ⌊q⌋ then ⌊q⌋ + 1
      else if ⌊q⌋ % 2 = 0 then ⌊q⌋ else ⌊q⌋ + 1 := by
  unfold roundHalfEven
  have hf : q.floor = ⌊q⌋ := by rw [Rat.floor_def', Rat.floor_def]
  have h2 : (mkRat 1 2 : ℚ) = 1/2 := by rw [mkRat_eq_div']; norm_num
  rw [hf, qsub_eq, Rat.mkRat_one, h2]

theorem pyRound3_eq (q : ℚ) : pyRound3 q = ((roundHalfEven (q * 1000) : ℤ) : ℚ) / 1000 := by
  unfold pyRound3
  rw [qmulNat_eq, mkRat_eq_div']
  norm_num

/-! ### Generic list facts used throughout -/

theorem mem_of_mem_dropWhileP {α : Type} {p : α → Bool} {x : α} :
    ∀ {l : List α}, x ∈ l.dropWhile p → x ∈ l := by
  intro l
  induction l with
  | nil => intro h; exact h
  | cons a l ih =>
    intro h
    by_cases hp : p a = true
    · rw [List.dropWhile_cons_of_pos hp] at h
      exact List.mem_cons_of_mem a (ih h)
    · rw [List.dropWhile_cons_of_neg hp] at h
      exact h

theorem mem_of_mem_takeWhileP {α : Type} {p : α → Bool} {x : α} :
    ∀ {l : List α}, x ∈ l.takeWhile p → x ∈ l := by
  intro l
  induction l with
  | nil => intro h; exact absurd h (List.not_mem_nil x)
  | cons a l ih =>
    intro h
    by_cases hp : p a = true
    · rw [List.takeWhile_cons_of_pos hp] at h
      rcases List.mem_cons.mp h with h1 | h2
      · exact h1 ▸ List.mem_cons_self a l
      · exact List.mem_cons_of_mem a (ih h2)
    · rw [List.takeWhile_cons_of_neg hp] at h
      exact absurd h (List.not_mem_nil x)

theorem takeWhile_append_all {α : Type} {p : α → Bool} :
    ∀ {a : List α} (b : List α), (∀ c ∈ a, p c = true) →
      (a ++ b).takeWhile p = a ++ b.takeWhile p := by
  intro a
  induction a with
  | nil => intro b _; rfl
  | cons x a ih =>
    intro b h
    have hx : p x = true := h x (List.mem_cons_self x a)
    simp only [List.cons_append, List.takeWhile_cons_of_pos hx]
    rw [ih b (fun c hc => h c (List.mem_cons_of_mem x hc))]

theorem dropWhile_append_all {α : Type} {p : α → Bool} :
    ∀ {a : List α} (b : List α), (∀ c ∈ a, p c = true) →
      (a ++ b).dropWhile p = b.dropWhile p := by
  intro a
  induction a with
  | nil => intro b _; rfl
  | cons x a ih =>
    intro b h
    have hx : p x = true := h x (List.mem_cons_self x a)
    simp only [List.cons_append, List.dropWhile_cons_of_pos hx]
    exact ih b (fun c hc => h c (List.mem_cons_of_mem x hc))

theorem takeWhile_all_eq {α : Type} {p : α → Bool} {a : List α}
    (h : ∀ c ∈ a, p c = true) : a.takeWhile p = a := by
  have := takeWhile_append_all (p := p) (a := a) [] h
  simpa using this

theorem map_id_of_mem {α : Type} {f : α → α} :
    ∀ {l : List α}, (∀ c ∈ l, f c = c) → l.map f = l := by
  intro l
  induction l with
  | nil => intro _; rfl
  | cons a l ih =>
    intro h
    simp only [List.map_cons]
    rw [h a (List.mem_cons_self a l), ih (fun c hc => h c (List.mem_cons_of_mem a hc))]

/-! ### Maximal word runs: the meaning of whole-word regex matches -/

theorem wsNotWord {c : Char} (h : c.isWhitespace = true) : isWordChar c = false := by
  have h' : c = ' ' ∨ c = '\t' ∨ c = '\r' ∨ c = '\n' := by
    simp only [Char.isWhitespace, Bool.or_eq_true, decide_eq_true_eq] at h
    tauto
  rcases h' with rfl | rfl | rfl | rfl <;> decide

theorem wordRunsGo_append_words :
    ∀ {a : List Char} (rest : List Char) (cur : List Char),
      (∀ c ∈ a, isWordChar c = true) →
      wordRunsGo cur (a ++ rest) = wordRunsGo (cur ++ a) rest := by
  intro a
  induction a with
  | nil => intro rest cur _; simp
  | cons x a ih =>
    intro rest cur h
    have hx : isWordChar x = true := h x (List.mem_cons_self x a)
    simp only [List.cons_append, wordRunsGo, hx, if_true, List.append_eq]
    rw [ih rest (cur ++ [x]) (fun c hc => h c (List.mem_cons_of_mem x hc))]
    simp

theorem wordRunsGo_sep :
    ∀ {sep : Char}, isWordChar sep = false →
      ∀ (a : List Char) (cur b : List Char),
        wordRunsGo cur (a ++ sep :: b) = wordRunsGo cur a ++ wordRunsGo [] b := by
  intro sep hsep a
  induction a with
  | nil =>
    intro cur b
    simp [wordRunsGo, hsep]
  | cons x a ih =>
    intro cur b
    by_cases hx : isWordChar x = true
    · simp only [List.cons_append, wordRunsGo, hx, if_true, List.append_eq]
      exact ih (cur ++ [x]) b
    · rw [Bool.not_eq_true] at hx
      simp only [List.cons_append, wordRunsGo, hx, Bool.false_eq_true, if_false, List.append_eq]
      rw [ih [] b, List.append_assoc]

end Traffic

namespace Traffic

/-! ### Whole-word substitution and word runs -/

theorem replGo_id {full ab : List Char} :
    ∀ (cs cur : List Char), (∀ t ∈ wordRunsGo cur cs, t ≠ full) →
      replGo full ab cur cs = cur ++ cs := by
  intro cs
  induction cs with
  | nil =>
    intro cur h
    simp only [replGo, substW]
    by_cases hc : cur = []
    · simp [hc]
    · have hne : cur ≠ full := by
        apply h
        simp [wordRunsGo, flushChunk, hc]
      simp [hc, hne]
  | cons c cs ih =>
    intro cur h
    by_cases hc : isWordChar c = true
    · simp only [replGo, hc, if_true]
      rw [ih (cur ++ [c]) (by
        intro t ht
        apply h
        simpa [wordRunsGo, hc] using ht)]
      simp
    · rw [Bool.not_eq_true] at hc
      simp only [replGo, hc, Bool.false_eq_true, if_false]
      have hgo : ∀ t ∈ wordRunsGo [] cs, t ≠ full := by
        intro t ht
        apply h
        simp only [wordRunsGo, hc, Bool.false_eq_true, if_false]
        exact List.mem_append_right _ ht
      rw [ih [] hgo]
      by_cases hcur : cur = []
      · simp [hcur, substW]
      · have hne : cur ≠ full := by
          apply h
          simp only [wordRunsGo, hc, Bool.false_eq_true, if_false]
          exact List.mem_append_left _ (by simp [flushChunk, hcur])
        simp [substW, hcur, hne]

theorem replaceWordFull_id {full ab l : List Char}
    (h : ∀ t ∈ wordRuns l, t ≠ full) : replaceWordFull full ab l = l := by
  unfold replaceWordFull
  rw [replGo_id l [] h]
  rfl

theorem wordRuns_replGo {full ab : List Char}
    (hab : ab ≠ []) (habw : ∀ c ∈ ab, isWordChar c = true) :
    ∀ (cs cur : List Char), (∀ c ∈ cur, isWordChar c = true) →
      wordRuns (replGo full ab cur cs) = (wordRunsGo cur cs).map (substRun full ab) := by
  intro cs
  induction cs with
  | nil =>
    intro cur hcur
    simp only [replGo, wordRunsGo]
    by_cases hc : cur = []
    · simp [hc, substW, wordRuns, wordRunsGo, flushChunk]
    · have hsub : substW full ab cur = substRun full ab cur := by
        simp [substW, substRun, hc]
      rw [hsub]
      have hw : ∀ c ∈ substRun full ab cur, isWordChar c = true := by
        intro c hmem
        unfold substRun at hmem
        by_cases hf : cur = full
        · exact habw c (by simpa [hf] using hmem)
        · exact hcur c (by simpa [hf] using hmem)
      have hne : substRun full ab cur ≠ [] := by
        unfold substRun
        by_cases hf : cur = full
        · simpa [hf] using hab
        · simpa [hf] using hc
      have : wordRuns (substRun full ab cur) = [substRun full ab cur] := by
        unfold wordRuns
        have := wordRunsGo_append_words (a := substRun full ab cur) [] [] hw
        simp only [List.append_nil, List.nil_append] at this
        rw [this]
        simp [wordRunsGo, flushChunk, hne]
      rw [this]
      simp [flushChunk, hc]
  | cons c cs ih =>
    intro cur hcur
    by_cases hc : isWordChar c = true
    · simp only [replGo, hc, if_true, wordRunsGo]
      exact ih (cur ++ [c]) (by
        intro d hd
        rcases List.mem_append.mp hd with h1 | h2
        · exact hcur d h1
        · simpa [List.mem_singleton.mp h2] using hc)
    · rw [Bool.not_eq_true] at hc
      simp only [replGo, hc, Bool.false_eq_true, if_false, wordRunsGo]
      have hsw : ∀ d ∈ substW full ab cur, isWordChar d = true := by
        intro d hd
        unfold substW at hd
        by_cases h0 : cur = []
        · simp [h0] at hd
        · by_cases hf : cur = full
          · subst hf
            simp [h0] at hd
            exact habw d hd
          · simp [h0, hf] at hd
            exact hcur d hd
      have step : wordRuns (substW full ab cur ++ c :: replGo full ab [] cs)
          = flushChunk (substW full ab cur) ++ wordRuns (replGo full ab [] cs) := by
        unfold wordRuns
        rw [wordRunsGo_append_words (c :: replGo full ab [] cs) [] hsw]
        simp only [List.nil_append, wordRunsGo, hc, Bool.false_eq_true, if_false]
      rw [step, ih [] (by intro d hd; simp at hd)]
      rw [List.map_append]
      congr 1
      by_cases h0 : cur = []
      · simp [h0, substW, flushChunk]
      · have h1 : substW full ab cur = substRun full ab cur := by simp [substW, substRun, h0]
        have h2 : substRun full ab cur ≠ [] := by
          unfold substRun
          by_cases hf : cur = full
          · simpa [hf] using hab
          · simpa [hf] using h0
        simp [h1, flushChunk, h0, h2]

theorem wordRuns_replaceWordFull {full ab l : List Char}
    (hab : ab ≠ []) (habw : ∀ c ∈ ab, isWordChar c = true) :
    wordRuns (replaceWordFull full ab l) = (wordRuns l).map (substRun full ab) := by
  unfold replaceWordFull wordRuns
  exact wordRuns_replGo hab habw l [] (by intro c hc; simp at hc)

end Traffic

namespace Traffic

/-! ### The abbreviation fold never leaves a full suffix word behind -/

theorem foldl_abbrevStep_id :
    ∀ (ps : List (List Char × List Char)) (l : List Char),
      (∀ p ∈ ps, ∀ t ∈ wordRuns l, t ≠ p.1) →
      ps.foldl abbrevStep l = l := by
  intro ps
  induction ps with
  | nil => intro l _; rfl
  | cons p ps ih =>
    intro l h
    have h1 : abbrevStep l p = l :=
      replaceWordFull_id (h p (List.mem_cons_self p ps))
    simp only [List.foldl_cons, h1]
    exact ih l (fun q hq => h q (List.mem_cons_of_mem p hq))

theorem notMem_wordRuns_foldl {full : List Char} :
    ∀ (ps : List (List Char × List Char)) (l : List Char),
      (∀ q ∈ ps, q.2 ≠ full ∧ q.2 ≠ [] ∧ (∀ c ∈ q.2, isWordChar c = true)) →
      (∀ t ∈ wordRuns l, t ≠ full) →
      ∀ t ∈ wordRuns (ps.foldl abbrevStep l), t ≠ full := by
  intro ps
  induction ps with
  | nil => intro l _ h; exact h
  | cons q ps ih =>
    intro l hq hl
    obtain ⟨hq1, hq2, hq3⟩ := hq q (List.mem_cons_self q ps)
    simp only [List.foldl_cons]
    apply ih
    · intro r hr; exact hq r (List.mem_cons_of_mem q hr)
    · intro t ht
      unfold abbrevStep at ht
      rw [wordRuns_replaceWordFull hq2 hq3] at ht
      obtain ⟨s, hs, hst⟩ := List.mem_map.mp ht
      unfold substRun at hst
      by_cases hf : s = q.1
      · simp only [hf, if_true] at hst
        exact hst ▸ hq1
      · simp only [hf, if_false] at hst
        exact hst ▸ hl s hs

theorem notMem_wordRuns_after_fold {p : List Char × List Char} :
    ∀ (ps₂ : List (List Char × List Char)) (m : List Char),
      p.2 ≠ p.1 → p.2 ≠ [] → (∀ c ∈ p.2, isWordChar c = true) →
      (∀ q ∈ ps₂, q.2 ≠ p.1 ∧ q.2 ≠ [] ∧ (∀ c ∈ q.2, isWordChar c = true)) →
      ∀ t ∈ wordRuns (ps₂.foldl abbrevStep (abbrevStep m p)), t ≠ p.1 := by
  intro ps₂ m h1 h2 h3 h4
  apply notMem_wordRuns_foldl ps₂ _ h4
  intro t ht
  unfold abbrevStep at ht
  rw [wordRuns_replaceWordFull h2 h3] at ht
  obtain ⟨s, hs, hst⟩ := List.mem_map.mp ht
  unfold substRun at hst
  by_cases hf : s = p.1
  · simp only [hf, if_true] at hst
    exact hst ▸ h1
  · simp only [hf, if_false] at hst
    exact hst ▸ hf

/-- After the abbreviations fold, no word run equals any of the full
suffix names: each pass removes its own name, and the two-letter
replacements can never recreate one. -/
theorem applyAbbrevs_avoids (x : List Char) :
    ∀ p ∈ abbreviations, ∀ t ∈ wordRuns (applyAbbrevs x), t ≠ p.1 := by
  intro p hp
  obtain ⟨ps₁, ps₂, hdecomp⟩ := List.append_of_mem hp
  have hx : applyAbbrevs x = ps₂.foldl abbrevStep (abbrevStep ((ps₁.foldl abbrevStep x)) p) := by
    unfold applyAbbrevs
    rw [hdecomp, List.foldl_append, List.foldl_cons]
    rfl
  rw [hx]
  have hcond : ∀ q ∈ abbreviations, q.2 ≠ p.1 ∧ q.2 ≠ [] ∧ (∀ c ∈ q.2, isWordChar c = true) := by
    have hfull : p.1 ∈ abbreviations.map Prod.fst := List.mem_map_of_mem Prod.fst hp
    have : ∀ f ∈ abbreviations.map Prod.fst,
        ∀ q ∈ abbreviations, q.2 ≠ f ∧ q.2 ≠ [] ∧ (∀ c ∈ q.2, isWordChar c = true) := by decide
    exact fun q hq => this p.1 hfull q hq
  apply notMem_wordRuns_after_fold ps₂ (ps₁.foldl abbrevStep x)
  · exact (hcond p hp).1
  · exact (hcond p hp).2.1
  · exact (hcond p hp).2.2
  · intro q hq
    exact hcond q (by rw [hdecomp]; exact List.mem_append_right ps₁ (List.mem_cons_of_mem p hq))

/-! ### Whitespace collapse preserves word runs -/

theorem flatten_pySplitGo_wordRuns :
    ∀ (y cur : List Char),
      ((pySplitGo cur y).map wordRuns).flatten = wordRuns (cur ++ y) := by
  intro y
  induction y with
  | nil =>
    intro cur
    by_cases hc : cur = []
    · simp [hc, pySplitGo, flushChunk, wordRuns, wordRunsGo]
    · simp [pySplitGo, flushChunk, hc, wordRuns]
  | cons c cs ih =>
    intro cur
    by_cases hw : c.isWhitespace = true
    · have hnw : isWordChar c = false := wsNotWord hw
      simp only [pySplitGo, hw, if_true, List.map_append, List.flatten_append]
      rw [ih []]
      have : wordRuns (cur ++ c :: cs) = wordRuns cur ++ wordRuns cs := by
        unfold wordRuns
        rw [wordRunsGo_sep hnw cur [] cs]
      rw [this, List.nil_append]
      congr 1
      by_cases hc : cur = []
      · simp [hc, flushChunk, wordRuns, wordRunsGo]
      · simp [flushChunk, hc]
    · rw [Bool.not_eq_true] at hw
      simp only [pySplitGo, hw, Bool.false_eq_true, if_false]
      rw [ih (cur ++ [c])]
      simp

theorem wordRuns_joinWs :
    ∀ (chunks : List (List Char)),
      wordRuns (joinWs chunks) = (chunks.map wordRuns).flatten := by
  intro chunks
  induction chunks with
  | nil => simp [joinWs, wordRuns, wordRunsGo, flushChunk]
  | cons w rest ih =>
    cases rest with
    | nil => simp [joinWs]
    | cons x rest2 =>
      have hsp : isWordChar ' ' = false := by decide
      simp only [joinWs]
      have : wordRuns (w ++ ' ' :: joinWs (x :: rest2))
          = wordRuns w ++ wordRuns (joinWs (x :: rest2)) := by
        unfold wordRuns
        rw [wordRunsGo_sep hsp w [] (joinWs (x :: rest2))]
      rw [this, ih]
      simp

/-- Collapsing whitespace does not change the word runs of a string. -/
theorem wordRuns_collapseWs (y : List Char) : wordRuns (collapseWs y) = wordRuns y := by
  unfold collapseWs pySplit
  rw [wordRuns_joinWs, flatten_pySplitGo_wordRuns y []]
  rfl

end Traffic

namespace Traffic

/-! ### The output shape of collapseWs -/

theorem pySplitGo_chunks_ok :
    ∀ (y cur : List Char), (∀ c ∈ cur, c.isWhitespace = false) →
      ∀ w ∈ pySplitGo cur y, w ≠ [] ∧ (∀ c ∈ w, c.isWhitespace = false) := by
  intro y
  induction y with
  | nil =>
    intro cur hcur w hw
    unfold pySplitGo flushChunk at hw
    by_cases hc : cur = []
    · simp [hc] at hw
    · simp only [hc, if_false] at hw
      rw [List.mem_singleton.mp hw]
      exact ⟨hc, hcur⟩
  | cons c cs ih =>
    intro cur hcur w hw
    by_cases hws : c.isWhitespace = true
    · simp only [pySplitGo, hws, if_true] at hw
      rcases List.mem_append.mp hw with h1 | h2
      · unfold flushChunk at h1
        by_cases hc : cur = []
        · simp [hc] at h1
        · simp only [hc, if_false] at h1
          rw [List.mem_singleton.mp h1]
          exact ⟨hc, hcur⟩
      · exact ih [] (by intro d hd; simp at hd) w h2
    · rw [Bool.not_eq_true] at hws
      simp only [pySplitGo, hws, Bool.false_eq_true, if_false] at hw
      refine ih (cur ++ [c]) ?_ w hw
      intro d hd
      rcases List.mem_append.mp hd with h1 | h2
      · exact hcur d h1
      · rw [List.mem_singleton.mp h2]
        exact hws

theorem pySplitGo_all_nonWs :
    ∀ (w cur : List Char), (∀ c ∈ w, c.isWhitespace = false) →
      pySplitGo cur w = flushChunk (cur ++ w) := by
  intro w
  induction w with
  | nil => intro cur _; simp [pySplitGo]
  | cons c cs ih =>
    intro cur h
    have hc : c.isWhitespace = false := h c (List.mem_cons_self c cs)
    simp only [pySplitGo, hc, Bool.false_eq_true, if_false]
    rw [ih (cur ++ [c]) (fun d hd => h d (List.mem_cons_of_mem c hd))]
    simp

theorem pySplitGo_chunk_sep :
    ∀ (w cur z : List Char), (∀ c ∈ w, c.isWhitespace = false) →
      pySplitGo cur (w ++ ' ' :: z) = flushChunk (cur ++ w) ++ pySplitGo [] z := by
  intro w
  induction w with
  | nil =>
    intro cur z _
    simp [pySplitGo]
  | cons c cs ih =>
    intro cur z h
    have hc : c.isWhitespace = false := h c (List.mem_cons_self c cs)
    simp only [List.cons_append, pySplitGo, hc, Bool.false_eq_true, if_false, List.append_eq]
    rw [ih (cur ++ [c]) z (fun d hd => h d (List.mem_cons_of_mem c hd))]
    simp

/-- Splitting undoes joining for nonempty whitespace-free chunks. -/
theorem pySplit_joinWs :
    ∀ (chunks : List (List Char)),
      (∀ w ∈ chunks, w ≠ [] ∧ (∀ c ∈ w, c.isWhitespace = false)) →
      pySplit (joinWs chunks) = chunks := by
  intro chunks
  induction chunks with
  | nil => intro _; rfl
  | cons w rest ih =>
    intro h
    obtain ⟨hw1, hw2⟩ := h w (List.mem_cons_self w rest)
    cases rest with
    | nil =>
      unfold pySplit joinWs
      rw [pySplitGo_all_nonWs w [] hw2]
      simp [flushChunk, hw1]
    | cons x rest2 =>
      unfold pySplit joinWs
      rw [pySplitGo_chunk_sep w [] (joinWs (x :: rest2)) hw2]
      have := ih (fun v hv => h v (List.mem_cons_of_mem w hv))
      unfold pySplit at this
      rw [this]
      simp [flushChunk, hw1]

theorem joinWs_head_shape (w : List Char) (rest : List (List Char)) :
    ∃ z, joinWs (w :: rest) = w ++ z := by
  cases rest with
  | nil => exact ⟨[], by simp [joinWs]⟩
  | cons x rest2 => exact ⟨' ' :: joinWs (x :: rest2), rfl⟩

theorem joinWs_reverse_head :
    ∀ (chunks : List (List Char)),
      (∀ w ∈ chunks, w ≠ [] ∧ (∀ c ∈ w, c.isWhitespace = false)) →
      chunks ≠ [] →
      ∃ c l', (joinWs chunks).reverse = c :: l' ∧ c.isWhitespace = false := by
  intro chunks
  induction chunks with
  | nil => intro _ h; exact absurd rfl h
  | cons w rest ih =>
    intro h _
    obtain ⟨hw1, hw2⟩ := h w (List.mem_cons_self w rest)
    cases rest with
    | nil =>
      obtain ⟨c, l', hcl⟩ := List.exists_cons_of_ne_nil (by simpa using hw1 : w.reverse ≠ [])
      refine ⟨c, l', by simpa [joinWs] using hcl, ?_⟩
      have : c ∈ w := by
        rw [List.mem_reverse.symm, hcl]
        exact List.mem_cons_self c l'
      exact hw2 c this
    | cons x rest2 =>
      obtain ⟨c, l', hcl, hc⟩ := ih (fun v hv => h v (List.mem_cons_of_mem w hv)) (by simp)
      refine ⟨c, l' ++ ' ' :: w.reverse, ?_, hc⟩
      show (joinWs (w :: x :: rest2)).reverse = c :: (l' ++ ' ' :: w.reverse)
      unfold joinWs
      rw [List.reverse_append, List.reverse_cons]
      rw [hcl]
      simp

/-- The output of collapseWs has no leading or trailing whitespace, so
stripping it is the identity. -/
theorem pyStrip_collapseWs (y : List Char) : pyStrip (collapseWs y) = collapseWs y := by
  have hch := pySplitGo_chunks_ok y [] (by intro d hd; simp at hd)
  unfold collapseWs pyStrip
  cases hchunks : pySplit y with
  | nil => simp [joinWs]
  | cons w rest =>
    have hok : ∀ v ∈ w :: rest, v ≠ [] ∧ (∀ c ∈ v, c.isWhitespace = false) := by
      intro v hv
      apply hch
      unfold pySplit at hchunks
      rw [hchunks]
      exact hv
    obtain ⟨hw1, hw2⟩ := hok w (List.mem_cons_self w rest)
    obtain ⟨z, hz⟩ := joinWs_head_shape w rest
    have hhead : (joinWs (w :: rest)).dropWhile Char.isWhitespace = joinWs (w :: rest) := by
      obtain ⟨c, w', hw⟩ := List.exists_cons_of_ne_nil hw1
      rw [hz, hw]
      simp only [List.cons_append]
      rw [List.dropWhile_cons_of_neg]
      rw [hw2 c (by rw [hw]; exact List.mem_cons_self c w')]
      simp
    rw [hhead]
    obtain ⟨c, l', hcl, hc⟩ := joinWs_reverse_head (w :: rest) hok (by simp)
    rw [hcl, List.dropWhile_cons_of_neg (by rw [hc]; simp)]
    rw [hcl.symm]
    simp

end Traffic

namespace Traffic

/-! ### Characters appearing in the normalizer output -/

theorem mem_replGo {full ab : List Char} {d : Char} :
    ∀ (cs cur : List Char), d ∈ replGo full ab cur cs → d ∈ cur ∨ d ∈ cs ∨ d ∈ ab := by
  intro cs
  induction cs with
  | nil =>
    intro cur h
    unfold replGo substW at h
    by_cases h0 : cur = []
    · simp [h0] at h
    · by_cases hf : cur = full
      · have hfne : full ≠ [] := hf ▸ h0
        simp only [h0, if_false, hf, if_true, hfne] at h
        exact Or.inr (Or.inr h)
      · simp only [h0, if_false, hf] at h
        exact Or.inl h
  | cons c cs ih =>
    intro cur h
    by_cases hc : isWordChar c = true
    · simp only [replGo, hc, if_true] at h
      rcases ih (cur ++ [c]) h with h1 | h2 | h3
      · rcases List.mem_append.mp h1 with ha | hb
        · exact Or.inl ha
        · exact Or.inr (Or.inl (by simpa using Or.inl (List.mem_singleton.mp hb)))
      · exact Or.inr (Or.inl (List.mem_cons_of_mem c h2))
      · exact Or.inr (Or.inr h3)
    · rw [Bool.not_eq_true] at hc
      simp only [replGo, hc, Bool.false_eq_true, if_false] at h
      rcases List.mem_append.mp h with h1 | h2
      · unfold substW at h1
        by_cases h0 : cur = []
        · simp [h0] at h1
        · by_cases hf : cur = full
          · have hfne : full ≠ [] := hf ▸ h0
            simp only [h0, if_false, hf, if_true, hfne] at h1
            exact Or.inr (Or.inr h1)
          · simp only [h0, if_false, hf] at h1
            exact Or.inl h1
      · rcases List.mem_cons.mp h2 with h3 | h4
        · exact Or.inr (Or.inl (h3 ▸ List.mem_cons_self c cs))
        · rcases ih [] h4 with h5 | h6 | h7
          · simp at h5
          · exact Or.inr (Or.inl (List.mem_cons_of_mem c h6))
          · exact Or.inr (Or.inr h7)

theorem mem_foldl_abbrevStep {d : Char} :
    ∀ (ps : List (List Char × List Char)) (l : List Char),
      d ∈ ps.foldl abbrevStep l → d ∈ l ∨ ∃ p ∈ ps, d ∈ p.2 := by
  intro ps
  induction ps with
  | nil => intro l h; exact Or.inl h
  | cons p ps ih =>
    intro l h
    simp only [List.foldl_cons] at h
    rcases ih (abbrevStep l p) h with h1 | ⟨q, hq, hdq⟩
    · unfold abbrevStep replaceWordFull at h1
      rcases mem_replGo l [] h1 with h2 | h3 | h4
      · simp at h2
      · exact Or.inl h3
      · exact Or.inr ⟨p, List.mem_cons_self p ps, h4⟩
    · exact Or.inr ⟨q, List.mem_cons_of_mem p hq, hdq⟩

theorem mem_joinWs {d : Char} :
    ∀ (chunks : List (List Char)),
      d ∈ joinWs chunks → (∃ w ∈ chunks, d ∈ w) ∨ d = ' ' := by
  intro chunks
  induction chunks with
  | nil => intro h; simp [joinWs] at h
  | cons w rest ih =>
    cases rest with
    | nil =>
      intro h
      exact Or.inl ⟨w, List.mem_cons_self w [], by simpa [joinWs] using h⟩
    | cons x rest2 =>
      intro h
      unfold joinWs at h
      rcases List.mem_append.mp h with h1 | h2
      · exact Or.inl ⟨w, List.mem_cons_self w _, h1⟩
      · rcases List.mem_cons.mp h2 with h3 | h4
        · exact Or.inr h3
        · rcases ih h4 with ⟨v, hv, hdv⟩ | h5
          · exact Or.inl ⟨v, List.mem_cons_of_mem w hv, hdv⟩
          · exact Or.inr h5

theorem mem_pySplitGo {d : Char} :
    ∀ (y cur w : List Char), w ∈ pySplitGo cur y → d ∈ w → d ∈ cur ∨ d ∈ y := by
  intro y
  induction y with
  | nil =>
    intro cur w hw hd
    unfold pySplitGo flushChunk at hw
    by_cases hc : cur = []
    · simp [hc] at hw
    · simp only [hc, if_false] at hw
      exact Or.inl ((List.mem_singleton.mp hw) ▸ hd)
  | cons c cs ih =>
    intro cur w hw hd
    by_cases hws : c.isWhitespace = true
    · simp only [pySplitGo, hws, if_true] at hw
      rcases List.mem_append.mp hw with h1 | h2
      · unfold flushChunk at h1
        by_cases hc : cur = []
        · simp [hc] at h1
        · simp only [hc, if_false] at h1
          exact Or.inl ((List.mem_singleton.mp h1) ▸ hd)
      · rcases ih [] w h2 hd with h3 | h4
        · simp at h3
        · exact Or.inr (List.mem_cons_of_mem c h4)
    · rw [Bool.not_eq_true] at hws
      simp only [pySplitGo, hws, Bool.false_eq_true, if_false] at hw
      rcases ih (cur ++ [c]) w hw hd with h1 | h2
      · rcases List.mem_append.mp h1 with ha | hb
        · exact Or.inl ha
        · exact Or.inr ((List.mem_singleton.mp hb) ▸ List.mem_cons_self c cs)
      · exact Or.inr (List.mem_cons_of_mem c h2)

theorem mem_pyStrip {d : Char} {l : List Char} (h : d ∈ pyStrip l) : d ∈ l := by
  unfold pyStrip at h
  rw [List.mem_reverse] at h
  have h1 := mem_of_mem_dropWhileP h
  rw [List.mem_reverse] at h1
  exact mem_of_mem_dropWhileP h1

theorem toNat_ofNat_valid {n : ℕ} (h : n < 55296) : (Char.ofNat n).toNat = n := by
  rw [Char.ofNat, dif_pos (Or.inl h)]
  rfl

theorem toUpper_toUpper (c : Char) : c.toUpper.toUpper = c.toUpper := by
  unfold Char.toUpper
  by_cases h : c.toNat ≥ 97 ∧ c.toNat ≤ 122
  · rw [if_pos h]
    have h2 : (Char.ofNat (c.toNat - 32)).toNat = c.toNat - 32 := by
      apply toNat_ofNat_valid
      omega
    rw [if_neg (by rw [h2]; omega)]
  · rw [if_neg h, if_neg h]

end Traffic

namespace Traffic

/-! ### Idempotence of the street-name normalizer -/

theorem applyAbbrevs_eq_foldl (l : List Char) :
    applyAbbrevs l = abbreviations.foldl abbrevStep l := rfl

theorem upperFixed_out (l : List Char) :
    ∀ c ∈ collapseWs (applyAbbrevs (pyStrip (pyUpper l))), c.toUpper = c := by
  intro c hc
  unfold collapseWs at hc
  rcases mem_joinWs (pySplit (applyAbbrevs (pyStrip (pyUpper l)))) hc with ⟨w, hw, hcw⟩ | hsp
  · rcases mem_pySplitGo _ [] w hw hcw with h1 | h2
    · simp at h1
    · rw [applyAbbrevs_eq_foldl] at h2
      rcases mem_foldl_abbrevStep abbreviations _ h2 with h3 | ⟨p, hp, hcp⟩
      · have h4 : c ∈ pyUpper l := mem_pyStrip h3
        obtain ⟨d, _, hd⟩ := List.mem_map.mp h4
        rw [hd.symm]
        exact toUpper_toUpper d
      · have : ∀ p ∈ abbreviations, ∀ c ∈ p.2, c.toUpper = c := by decide
        exact this p hp c hcp
  · rw [hsp]; decide

theorem pyUpper_out_id (l : List Char) :
    pyUpper (collapseWs (applyAbbrevs (pyStrip (pyUpper l))))
      = collapseWs (applyAbbrevs (pyStrip (pyUpper l))) :=
  map_id_of_mem (upperFixed_out l)

theorem applyAbbrevs_collapse_id (x : List Char) :
    applyAbbrevs (collapseWs (applyAbbrevs x)) = collapseWs (applyAbbrevs x) := by
  rw [applyAbbrevs_eq_foldl]
  apply foldl_abbrevStep_id
  intro p hp t ht
  rw [wordRuns_collapseWs] at ht
  exact applyAbbrevs_avoids x p hp t ht

theorem collapseWs_collapseWs (y : List Char) :
    collapseWs (collapseWs y) = collapseWs y := by
  show collapseWs (joinWs (pySplit y)) = joinWs (pySplit y)
  unfold collapseWs
  rw [pySplit_joinWs (pySplit y) (pySplitGo_chunks_ok y [] (by intro d hd; simp at hd))]

theorem normalizeL_idem (l : List Char) : normalizeL (normalizeL l) = normalizeL l := by
  by_cases h : l = []
  · simp [h, normalizeL]
  · have hl : normalizeL l = collapseWs (applyAbbrevs (pyStrip (pyUpper l))) := by
      unfold normalizeL
      rw [if_neg h]
    rw [hl]
    by_cases h2 : collapseWs (applyAbbrevs (pyStrip (pyUpper l))) = []
    · rw [h2]
      simp [normalizeL]
    · unfold normalizeL
      rw [if_neg h2, pyUpper_out_id l, pyStrip_collapseWs, applyAbbrevs_collapse_id,
        collapseWs_collapseWs]

end Traffic

namespace Traffic

/-! ### Index lookup facts -/

theorem mem_uniqGo {α : Type} [DecidableEq α] {s : α} :
    ∀ (l seen : List α), s ∈ uniqGo seen l ↔ (s ∈ l ∧ s ∉ seen) := by
  intro l
  induction l with
  | nil => intro seen; simp [uniqGo]
  | cons a l ih =>
    intro seen
    by_cases ha : a ∈ seen
    · simp only [uniqGo, ha, if_true]
      rw [ih seen]
      constructor
      · rintro ⟨h1, h2⟩
        exact ⟨List.mem_cons_of_mem a h1, h2⟩
      · rintro ⟨h1, h2⟩
        rcases List.mem_cons.mp h1 with rfl | h3
        · exact absurd ha h2
        · exact ⟨h3, h2⟩
    · simp only [uniqGo, ha, if_false]
      constructor
      · intro h
        rcases List.mem_cons.mp h with rfl | h1
        · exact ⟨List.mem_cons_self s l, ha⟩
        · rw [ih (a :: seen)] at h1
          obtain ⟨h2, h3⟩ := h1
          exact ⟨List.mem_cons_of_mem a h2, fun hs => h3 (List.mem_cons_of_mem a hs)⟩
      · rintro ⟨h1, h2⟩
        rcases List.mem_cons.mp h1 with rfl | h3
        · exact List.mem_cons_self s _
        · by_cases hsa : s = a
          · exact hsa ▸ List.mem_cons_self a _
          · apply List.mem_cons_of_mem
            rw [ih (a :: seen)]
            exact ⟨h3, by simp [hsa, h2]⟩

theorem mem_uniqDedup {α : Type} [DecidableEq α] {s : α} (l : List α) :
    s ∈ uniqDedup l ↔ s ∈ l := by
  unfold uniqDedup
  rw [mem_uniqGo l []]
  simp

theorem lookupA_map_keys {β : Type} (f : String → β) (k : String) :
    ∀ (xs : List String),
      lookupA k (xs.map (fun n => (n, f n))) = if k ∈ xs then some (f k) else none := by
  intro xs
  induction xs with
  | nil => simp [lookupA]
  | cons x xs ih =>
    by_cases hx : x = k
    · subst hx
      simp [lookupA, ih]
    · simp only [List.map_cons, lookupA]
      rw [if_neg (by simpa using hx), ih]
      by_cases hk : k ∈ xs
      · simp [hk, hx]
      · simp only [hk, if_false]
        rw [if_neg (fun h => (List.mem_cons.mp h).elim (fun he => hx he.symm) hk)]

theorem lookupA_street_index (td : TrafficData) (k : String) :
    lookupA k td.street_index =
      if k ∈ td.traffic_df.map (fun r => r.street_name)
      then some (buildEntry td.hasDateCol (groupFor td.traffic_df k))
      else none := by
  show lookupA k (_build_street_index td.hasDateCol td.traffic_df) = _
  unfold _build_street_index
  rw [lookupA_map_keys (fun n => buildEntry td.hasDateCol (groupFor td.traffic_df n)) k]
  by_cases hk : k ∈ uniqDedup (td.traffic_df.map (fun r => r.street_name))
  · rw [if_pos hk, if_pos ((mem_uniqDedup _).mp hk)]
  · rw [if_neg hk, if_neg (fun h => hk ((mem_uniqDedup _).mpr h))]

theorem lookupA_isSome_of_mem {β : Type} {k : String} {v : β} :
    ∀ {l : List (String × β)}, (k, v) ∈ l → lookupA k l ≠ none := by
  intro l
  induction l with
  | nil => intro h; simp at h
  | cons p ps ih =>
    intro h
    rcases List.mem_cons.mp h with h1 | h2
    · rw [show p = (k, v) from h1.symm]
      simp [lookupA]
    · unfold lookupA
      by_cases hp : p.1 == k
      · simp [hp]
      · simp only [hp, Bool.false_eq_true, if_false]
        exact ih h2

end Traffic

namespace Traffic

/-! ### Numeric bounds for rounding and means -/

theorem roundHalfEven_mem {a b : ℤ} {q : ℚ} (ha : (a : ℚ) ≤ q) (hb : q ≤ (b : ℚ)) :
    a ≤ roundHalfEven q ∧ roundHalfEven q ≤ b := by
  have hfa : a ≤ ⌊q⌋ := Int.le_floor.mpr ha
  have hfb : ⌊q⌋ ≤ b := by
    have h1 : (⌊q⌋ : ℚ) ≤ (b : ℚ) := le_trans (Int.floor_le q) hb
    exact_mod_cast h1
  have hstep : roundHalfEven q = ⌊q⌋ ∨ (roundHalfEven q = ⌊q⌋ + 1 ∧ (1 : ℚ)/2 ≤ q - ⌊q⌋) := by
    rw [roundHalfEven_eq]
    by_cases h1 : q - ⌊q⌋ < 1/2
    · exact Or.inl (if_pos h1)
    · rw [if_neg h1]
      by_cases h2 : (1 : ℚ)/2 < q - ⌊q⌋
      · exact Or.inr ⟨if_pos h2, by linarith⟩
      · rw [if_neg h2]
        by_cases h3 : ⌊q⌋ % 2 = 0
        · exact Or.inl (if_pos h3)
        · exact Or.inr ⟨if_neg h3, by linarith⟩
  rcases hstep with h | ⟨h, hr⟩
  · exact ⟨h ▸ hfa, h ▸ hfb⟩
  · constructor
    · rw [h]; omega
    · rw [h]
      by_contra hcon
      have h4 : b ≤ ⌊q⌋ := by omega
      have h5 : (b : ℚ) ≤ (⌊q⌋ : ℚ) := by exact_mod_cast h4
      have h6 : (⌊q⌋ : ℚ) ≤ q := Int.floor_le q
      linarith

theorem sum_bounds {lo hi : ℚ} :
    ∀ {l : List ℚ}, (∀ x ∈ l, lo ≤ x ∧ x ≤ hi) →
      lo * l.length ≤ l.sum ∧ l.sum ≤ hi * l.length := by
  intro l
  induction l with
  | nil => intro _; simp
  | cons x l ih =>
    intro h
    obtain ⟨hx1, hx2⟩ := h x (List.mem_cons_self x l)
    obtain ⟨h1, h2⟩ := ih (fun y hy => h y (List.mem_cons_of_mem x hy))
    constructor
    · simp only [List.sum_cons, List.length_cons]
      push_cast
      linarith
    · simp only [List.sum_cons, List.length_cons]
      push_cast
      linarith

theorem meanQ_mem {lo hi : ℚ} {l : List ℚ} (hne : l ≠ [])
    (h : ∀ x ∈ l, lo ≤ x ∧ x ≤ hi) : lo ≤ meanQ l ∧ meanQ l ≤ hi := by
  have hlen : 0 < (l.length : ℚ) := by
    have : 0 < l.length := List.length_pos.mpr hne
    exact_mod_cast this
  obtain ⟨h1, h2⟩ := sum_bounds h
  rw [meanQ_eq]
  constructor
  · rw [le_div_iff₀ hlen]
    exact h1
  · rw [div_le_iff₀ hlen]
    exact h2

theorem foldl_max_bounds :
    ∀ (cs : List ℚ) (c : ℚ), c ≤ cs.foldl qmax c ∧ ∀ x ∈ cs, x ≤ cs.foldl qmax c := by
  intro cs
  induction cs with
  | nil => intro c; exact ⟨le_refl c, by intro x hx; simp at hx⟩
  | cons d cs ih =>
    intro c
    obtain ⟨h1, h2⟩ := ih (qmax c d)
    refine ⟨le_trans (le_qmax_left c d) h1, ?_⟩
    intro x hx
    rcases List.mem_cons.mp hx with rfl | h3
    · exact le_trans (le_qmax_right c x) h1
    · exact h2 x h3

theorem foldl_min_bounds :
    ∀ (cs : List ℚ) (c : ℚ), cs.foldl qmin c ≤ c ∧ ∀ x ∈ cs, cs.foldl qmin c ≤ x := by
  intro cs
  induction cs with
  | nil => intro c; exact ⟨le_refl c, by intro x hx; simp at hx⟩
  | cons d cs ih =>
    intro c
    obtain ⟨h1, h2⟩ := ih (qmin c d)
    refine ⟨le_trans h1 (qmin_le_left c d), ?_⟩
    intro x hx
    rcases List.mem_cons.mp hx with rfl | h3
    · exact le_trans h1 (qmin_le_right c x)
    · exact h2 x h3

theorem minQ_le_maxQ {l : List ℚ} {x : ℚ} (hx : x ∈ l) : minQ l ≤ x ∧ x ≤ maxQ l := by
  cases l with
  | nil => simp at hx
  | cons c cs =>
    rcases List.mem_cons.mp hx with rfl | h
    · exact ⟨(foldl_min_bounds cs x).1, (foldl_max_bounds cs x).1⟩
    · exact ⟨(foldl_min_bounds cs c).2 x h, (foldl_max_bounds cs c).2 x h⟩

theorem pyRound3_mem {q : ℚ} (h1 : 90/100 ≤ q) (h2 : q ≤ 130/100) :
    90/100 ≤ pyRound3 q ∧ pyRound3 q ≤ 130/100 := by
  have hb := roundHalfEven_mem (a := 900) (b := 1300) (q := q * 1000)
    (by push_cast; linarith) (by push_cast; linarith)
  obtain ⟨hb1, hb2⟩ := hb
  have hc1 : (900 : ℚ) ≤ (roundHalfEven (q * 1000) : ℚ) := by exact_mod_cast hb1
  have hc2 : (roundHalfEven (q * 1000) : ℚ) ≤ 1300 := by exact_mod_cast hb2
  rw [pyRound3_eq]
  constructor <;> [linarith; linarith]

end Traffic

namespace Traffic

/-! ### Structure of route adjustment results -/

theorem collectDetails_nil (td : TrafficData) : collectDetails td [] = [] := rfl

theorem routeMultipliers_nil (td : TrafficData) : routeMultipliers td [] = [] := rfl

theorem levelOfCount_ne_unknown (count : ℚ) : levelOfCount count ≠ TrafficLevel.unknown := by
  unfold levelOfCount
  split_ifs <;> simp

theorem mult_table_bounds (lvl : TrafficLevel) :
    90/100 ≤ CONGESTION_MULTIPLIERS lvl ∧ CONGESTION_MULTIPLIERS lvl ≤ 130/100 := by
  cases lvl <;> constructor <;> norm_num [CONGESTION_MULTIPLIERS, mkRat_eq_div']

theorem mem_collectDetails {td : TrafficData} {steps : List RouteStep} {d : StreetDetail}
    (hd : d ∈ collectDetails td steps) :
    d.level ≠ TrafficLevel.unknown ∧ d.multiplier = CONGESTION_MULTIPLIERS d.level := by
  unfold collectDetails at hd
  obtain ⟨l, hl, hdl⟩ := List.mem_flatten.mp hd
  obtain ⟨step, _, hstep⟩ := List.mem_map.mp hl
  rw [hstep.symm] at hdl
  unfold stepDetails at hdl
  obtain ⟨street, _, hsd⟩ := List.mem_filterMap.mp hdl
  rcases hlv : get_traffic_level td street with ⟨level, mult, count⟩
  rw [hlv] at hsd
  dsimp only at hsd
  by_cases hun : level ≠ TrafficLevel.unknown
  · rw [if_pos hun] at hsd
    have hd2 : d = ⟨street, level, mult, count⟩ := by
      injection hsd with h
      exact h.symm
    have hshape : mult = CONGESTION_MULTIPLIERS level := by
      unfold get_traffic_level at hlv
      rcases hcnt : get_traffic_count td street with _ | c
      · rw [hcnt] at hlv
        injection hlv with h1 h2
        exfalso
        apply hun
        exact h1.symm
      · rw [hcnt] at hlv
        injection hlv with h1 h2
        injection h2 with h3 h4
        rw [h3.symm, h1]
    rw [hd2]
    exact ⟨hun, hshape⟩
  · rw [if_neg hun] at hsd
    exact absurd hsd (by simp)

theorem routeMultipliers_bounds {td : TrafficData} {steps : List RouteStep} :
    ∀ m ∈ routeMultipliers td steps, 90/100 ≤ m ∧ m ≤ 130/100 := by
  intro m hm
  unfold routeMultipliers at hm
  obtain ⟨d, hd, hdm⟩ := List.mem_map.mp hm
  obtain ⟨_, hmult⟩ := mem_collectDetails hd
  rw [hdm.symm, hmult]
  exact mult_table_bounds d.level

theorem calculate_route_adjustment_mean (td : TrafficData) (steps : List RouteStep)
    (h : routeMultipliers td steps ≠ []) :
    (calculate_route_adjustment td steps).multiplier
      = pyRound3 (meanQ (routeMultipliers td steps)) := by
  have hsteps : steps ≠ [] := by
    intro he
    rw [he, routeMultipliers_nil] at h
    exact h rfl
  unfold calculate_route_adjustment
  rw [if_neg hsteps]
  simp only [h, if_false]

theorem calculate_route_adjustment_shape (td : TrafficData) (steps : List RouteStep) :
    calculate_route_adjustment td steps = ⟨1, .low, 0, []⟩ ∨
    (routeMultipliers td steps ≠ [] ∧
      calculate_route_adjustment td steps =
        ⟨pyRound3 (meanQ (routeMultipliers td steps)),
         confidenceOf (routeMultipliers td steps).length,
         (routeMultipliers td steps).length,
         collectDetails td steps⟩) := by
  unfold calculate_route_adjustment
  by_cases h1 : steps = []
  · rw [if_pos h1]
    exact Or.inl rfl
  · rw [if_neg h1]
    by_cases h2 : routeMultipliers td steps = []
    · simp only [h2, if_true]
      exact Or.inl trivial
    · simp only [h2, if_false]
      exact Or.inr ⟨h2, trivial⟩

end Traffic

namespace Traffic

/-! ### The search sort is ordered by its key -/

theorem keyLE_total (a b : ℕ × ℤ) : keyLE a b = true ∨ keyLE b a = true := by
  unfold keyLE
  rcases lt_trichotomy a.1 b.1 with h | h | h
  · left; simp [h]
  · rcases le_total a.2 b.2 with h2 | h2
    · left; simp [h, h2]
    · right; simp [h.symm, h2]
  · right; simp [h]

theorem keyLE_trans {a b c : ℕ × ℤ} (h1 : keyLE a b = true) (h2 : keyLE b c = true) :
    keyLE a c = true := by
  unfold keyLE at h1 h2 ⊢
  simp only [Bool.or_eq_true, Bool.and_eq_true, decide_eq_true_eq, beq_iff_eq] at h1 h2 ⊢
  omega

theorem mem_insertSearch {q : String} {x z : SearchEntry} :
    ∀ {ys : List SearchEntry}, z ∈ insertSearch q x ys ↔ z = x ∨ z ∈ ys := by
  intro ys
  induction ys with
  | nil => simp [insertSearch]
  | cons y ys ih =>
    unfold insertSearch
    by_cases h : keyLE (searchKey q y) (searchKey q x) = true
    · simp only [h, if_true]
      rw [List.mem_cons, ih]
      constructor
      · rintro (h1 | h2 | h3)
        · rw [h1]
          exact Or.inr (List.mem_cons_self y ys)
        · exact Or.inl h2
        · exact Or.inr (List.mem_cons_of_mem y h3)
      · rintro (h1 | h2)
        · exact Or.inr (Or.inl h1)
        · rcases List.mem_cons.mp h2 with h3 | h4
          · exact Or.inl h3
          · exact Or.inr (Or.inr h4)
    · rw [if_neg h, List.mem_cons, List.mem_cons]

theorem insertSearch_pairwise {q : String} {x : SearchEntry} :
    ∀ {ys : List SearchEntry},
      List.Pairwise (fun a b => keyLE (searchKey q a) (searchKey q b) = true) ys →
      List.Pairwise (fun a b => keyLE (searchKey q a) (searchKey q b) = true)
        (insertSearch q x ys) := by
  intro ys
  induction ys with
  | nil => intro _; simp [insertSearch]
  | cons y ys ih =>
    intro hp
    rw [List.pairwise_cons] at hp
    obtain ⟨hy, hys⟩ := hp
    unfold insertSearch
    by_cases h : keyLE (searchKey q y) (searchKey q x) = true
    · rw [if_pos h, List.pairwise_cons]
      constructor
      · intro z hz
        rcases mem_insertSearch.mp hz with rfl | h2
        · exact h
        · exact hy z h2
      · exact ih hys
    · rw [if_neg h, List.pairwise_cons]
      have hxy : keyLE (searchKey q x) (searchKey q y) = true := by
        rcases keyLE_total (searchKey q y) (searchKey q x) with h1 | h1
        · exact absurd h1 h
        · exact h1
      constructor
      · intro z hz
        rcases List.mem_cons.mp hz with rfl | h2
        · exact hxy
        · exact keyLE_trans hxy (hy z h2)
      · exact List.pairwise_cons.mpr ⟨hy, hys⟩

theorem sortSearch_pairwise (q : String) (l : List SearchEntry) :
    List.Pairwise (fun a b => keyLE (searchKey q a) (searchKey q b) = true) (sortSearch q l) := by
  unfold sortSearch
  have hgen : ∀ (l acc : List SearchEntry),
      List.Pairwise (fun a b => keyLE (searchKey q a) (searchKey q b) = true) acc →
      List.Pairwise (fun a b => keyLE (searchKey q a) (searchKey q b) = true)
        (l.foldl (fun acc x => insertSearch q x acc) acc) := by
    intro l
    induction l with
    | nil => intro acc h; exact h
    | cons x l ih =>
      intro acc h
      exact ih (insertSearch q x acc) (insertSearch_pairwise h)
  exact hgen l [] List.Pairwise.nil

theorem mem_sortSearch {q : String} {z : SearchEntry} {l : List SearchEntry} :
    z ∈ sortSearch q l → z ∈ l := by
  unfold sortSearch
  have hgen : ∀ (l acc : List SearchEntry),
      z ∈ l.foldl (fun acc x => insertSearch q x acc) acc → z ∈ acc ∨ z ∈ l := by
    intro l
    induction l with
    | nil => intro acc h; exact Or.inl h
    | cons x l ih =>
      intro acc h
      rcases ih (insertSearch q x acc) h with h1 | h2
      · rcases mem_insertSearch.mp h1 with rfl | h3
        · exact Or.inr (List.mem_cons_self z l)
        · exact Or.inl h3
      · exact Or.inr (List.mem_cons_of_mem x h2)
  intro h
  rcases hgen l [] h with h1 | h2
  · simp at h1
  · exact h2

/-! ### Sorting an already descending dated group changes nothing -/

theorem insertDesc_append {x : ℤ × RawRecord} :
    ∀ {acc : List (ℤ × RawRecord)}, (∀ y ∈ acc, x.1 ≤ y.1) →
      insertDesc x acc = acc ++ [x] := by
  intro acc
  induction acc with
  | nil => intro _; rfl
  | cons y ys ih =>
    intro h
    unfold insertDesc
    rw [if_pos (h y (List.mem_cons_self y ys))]
    rw [ih (fun z hz => h z (List.mem_cons_of_mem y hz))]
    rfl

theorem foldl_insertDesc_sorted :
    ∀ (l acc : List (ℤ × RawRecord)),
      List.Pairwise (fun a b => b.1 ≤ a.1) l →
      (∀ x ∈ l, ∀ y ∈ acc, x.1 ≤ y.1) →
      l.foldl (fun acc x => insertDesc x acc) acc = acc ++ l := by
  intro l
  induction l with
  | nil => intro acc _ _; simp
  | cons x l ih =>
    intro acc hp hcross
    rw [List.pairwise_cons] at hp
    obtain ⟨hx, hl⟩ := hp
    simp only [List.foldl_cons]
    rw [insertDesc_append (hcross x (List.mem_cons_self x l))]
    rw [ih (acc ++ [x]) hl ?_]
    · simp
    · intro z hz y hy
      rcases List.mem_append.mp hy with h1 | h2
      · exact hcross z (List.mem_cons_of_mem x hz) y h1
      · rw [List.mem_singleton.mp h2]
        exact hx z hz

end Traffic

namespace Traffic

/-! ### Empty-input and empty-index behaviour -/

theorem isSubstrOf_nil_left : ∀ (l : List Char), isSubstrOf [] l = true := by
  intro l
  cases l with
  | nil => rfl
  | cons c cs => simp [isSubstrOf, isPrefOf]

theorem strContains_empty_needle (h : String) : strContains h "" = true := by
  unfold strContains
  exact isSubstrOf_nil_left h.data

theorem street_index_ne_nil {td : TrafficData} (h : td.traffic_df ≠ []) :
    td.street_index ≠ [] := by
  show _build_street_index td.hasDateCol td.traffic_df ≠ []
  unfold _build_street_index
  obtain ⟨r, rs, hr⟩ := List.exists_cons_of_ne_nil h
  rw [hr]
  simp only [List.map_cons]
  unfold uniqDedup uniqGo
  simp

theorem normalize_empty : _normalize_street_name "" = "" := rfl

theorem get_traffic_count_empty_street {td : TrafficData} (h : td.traffic_df ≠ []) :
    ∃ c, get_traffic_count td "" = some c := by
  unfold get_traffic_count
  rw [if_neg h]
  rcases hlk : lookupA (_normalize_street_name "") td.street_index with _ | e
  · simp only [hlk]
    have hfil : td.street_index.filter
        (fun p => strContains p.1 (_normalize_street_name "") || strContains (_normalize_street_name "") p.1)
        = td.street_index := by
      rw [List.filter_eq_self]
      intro p _
      rw [normalize_empty, strContains_empty_needle p.1]
      simp
    rw [hfil]
    have hmap : td.street_index.map (fun p => p.2.avg_count) ≠ [] := by
      intro hc
      apply street_index_ne_nil h
      exact List.map_eq_nil_iff.mp hc
    simp only [hmap, if_false]
    exact ⟨_, rfl⟩
  · simp only [hlk]
    exact ⟨e.avg_count, rfl⟩

theorem get_traffic_level_unknown_of_none {td : TrafficData} {s : String}
    (h : get_traffic_count td s = none) :
    get_traffic_level td s = (TrafficLevel.unknown, 1, none) := by
  unfold get_traffic_level
  rw [h]

theorem get_traffic_level_of_some {td : TrafficData} {s : String} {c : ℚ}
    (h : get_traffic_count td s = some c) :
    get_traffic_level td s = (levelOfCount c, CONGESTION_MULTIPLIERS (levelOfCount c), some c) := by
  unfold get_traffic_level
  rw [h]

/-! ### Building a singleton group -/

theorem sortByDateDesc_singleton (r : RawRecord) : sortByDateDesc [r] = [r] := by
  unfold sortByDateDesc
  rcases hd : r.date_count with _ | d
  · simp [hd, insertDesc, Option.isNone]
  · simp [hd, insertDesc, Option.isNone]

theorem buildEntry_singleton (b : Bool) (r : RawRecord) :
    buildEntry b [r] = ⟨r.total_count, r.total_count, r.total_count, 1⟩ := by
  unfold buildEntry
  cases b with
  | false => simp [maxQ, minQ, meanQ_singleton]
  | true => rw [sortByDateDesc_singleton]; simp [maxQ, minQ, meanQ_singleton]

theorem filterMap_dates_of_all_some {g : List RawRecord}
    (h : ∀ r ∈ g, r.date_count.isSome = true) :
    g.filterMap (fun r => r.date_count.map (fun d => (d, r)))
      = g.map (fun r => (r.date_count.getD 0, r)) := by
  induction g with
  | nil => rfl
  | cons r g ih =>
    have hr := h r (List.mem_cons_self r g)
    rcases hd : r.date_count with _ | d
    · rw [hd] at hr; simp at hr
    · simp only [List.filterMap_cons, List.map_cons, hd, Option.map_some]
      rw [ih (fun x hx => h x (List.mem_cons_of_mem r hx))]
      simp

theorem filter_none_of_all_some {g : List RawRecord}
    (h : ∀ r ∈ g, r.date_count.isSome = true) :
    g.filter (fun r => r.date_count.isNone) = [] := by
  rw [List.filter_eq_nil_iff]
  intro r hr
  have := h r hr
  simp [Option.isNone]
  rcases hd : r.date_count with _ | d
  · rw [hd] at this; simp at this
  · simp

theorem sortByDateDesc_of_sorted {g : List RawRecord}
    (hs : ∀ r ∈ g, r.date_count.isSome = true)
    (hp : List.Pairwise (fun a b => b.date_count.getD 0 ≤ a.date_count.getD 0) g) :
    sortByDateDesc g = g := by
  unfold sortByDateDesc
  rw [filterMap_dates_of_all_some hs, filter_none_of_all_some hs]
  have hpp : List.Pairwise (fun a b => b.1 ≤ a.1)
      (g.map (fun r => (r.date_count.getD 0, r))) := by
    apply List.pairwise_map.mpr
    exact hp
  rw [foldl_insertDesc_sorted _ [] hpp (by intro x _ y hy; simp at hy)]
  rw [List.nil_append, List.append_nil, List.map_map]
  exact map_id_of_mem (by intro r _; rfl)

end Traffic

namespace Traffic

/-- C1: whenever at least one extracted candidate street of a route
classifies to a non-unknown tier, calculate_route_adjustment returns as
multiplier the unweighted arithmetic mean of all per-street tier
multipliers collected across all steps (one per non-unknown
classification, so a street extracted in two steps contributes twice),
rounded to 3 decimal places.  The witness instantiates the MAIN ST / ELM
AV example, whose multiplier is the mean of 0.95 and 1.15, i.e. 1.05. -/
theorem traffic_C1_route_multiplier_mean (td : TrafficData) (steps : List RouteStep)
    (h : routeMultipliers td steps ≠ []) :
    (calculate_route_adjustment td steps).multiplier
      = pyRound3 (meanQ (routeMultipliers td steps)) :=
  calculate_route_adjustment_mean td steps h

theorem traffic_C1_witness :
    routeMultipliers exTD exSteps ≠ [] ∧
    (calculate_route_adjustment exTD exSteps).multiplier
      = pyRound3 (meanQ (routeMultipliers exTD exSteps)) ∧
    routeMultipliers exTD exSteps = [mkRat 95 100, mkRat 115 100] ∧
    (calculate_route_adjustment exTD exSteps).multiplier = mkRat 105 100 ∧
    mkRat 105 100 = 105/100 :=
  ⟨by decide, traffic_C1_route_multiplier_mean exTD exSteps (by decide), by decide, by decide,
   by rw [mkRat_eq_div']; norm_num⟩

/-- C4: the classifier maps a looked-up count to a tier by half-open
ascending thresholds (8000 is moderate, 25000 is very_high) and returns
the fixed multiplier of that tier. -/
theorem traffic_C4_thresholds :
    (∀ count : ℚ, count < 3000 → levelOfCount count = TrafficLevel.very_low) ∧
    (∀ count : ℚ, 3000 ≤ count → count < 8000 → levelOfCount count = TrafficLevel.low) ∧
    (∀ count : ℚ, 8000 ≤ count → count < 15000 → levelOfCount count = TrafficLevel.moderate) ∧
    (∀ count : ℚ, 15000 ≤ count → count < 25000 → levelOfCount count = TrafficLevel.high) ∧
    (∀ count : ℚ, 25000 ≤ count → levelOfCount count = TrafficLevel.very_high) ∧
    CONGESTION_MULTIPLIERS TrafficLevel.very_low = 90/100 ∧
    CONGESTION_MULTIPLIERS TrafficLevel.low = 95/100 ∧
    CONGESTION_MULTIPLIERS TrafficLevel.moderate = 1 ∧
    CONGESTION_MULTIPLIERS TrafficLevel.high = 115/100 ∧
    CONGESTION_MULTIPLIERS TrafficLevel.very_high = 130/100 ∧
    (∀ (td : TrafficData) (s : String) (c : ℚ), get_traffic_count td s = some c →
      get_traffic_level td s
        = (levelOfCount c, CONGESTION_MULTIPLIERS (levelOfCount c), some c)) := by
  refine ⟨?_, ?_, ?_, ?_, ?_, by norm_num [CONGESTION_MULTIPLIERS, mkRat_eq_div'],
    by norm_num [CONGESTION_MULTIPLIERS, mkRat_eq_div'], rfl,
    by norm_num [CONGESTION_MULTIPLIERS, mkRat_eq_div'],
    by norm_num [CONGESTION_MULTIPLIERS, mkRat_eq_div'], ?_⟩
  · intro count h
    unfold levelOfCount
    rw [if_pos h]
  · intro count h1 h2
    unfold levelOfCount
    rw [if_neg (by linarith), if_pos h2]
  · intro count h1 h2
    unfold levelOfCount
    rw [if_neg (by linarith), if_neg (by linarith), if_pos h2]
  · intro count h1 h2
    unfold levelOfCount
    rw [if_neg (by linarith), if_neg (by linarith), if_neg (by linarith), if_pos h2]
  · intro count h1
    unfold levelOfCount
    rw [if_neg (by linarith), if_neg (by linarith), if_neg (by linarith), if_neg (by linarith)]
  · intro td s c h
    exact get_traffic_level_of_some h

theorem traffic_C4_witness :
    levelOfCount 8000 = TrafficLevel.moderate ∧
    levelOfCount 25000 = TrafficLevel.very_high ∧
    levelOfCount 2999 = TrafficLevel.very_low ∧
    get_traffic_level exTD "MAIN ST"
      = (levelOfCount 5000, CONGESTION_MULTIPLIERS (levelOfCount 5000), some 5000) ∧
    get_traffic_level exTD "MAIN ST" = (TrafficLevel.low, mkRat 95 100, some 5000) := by
  refine ⟨traffic_C4_thresholds.2.2.1 8000 (by norm_num) (by norm_num),
    traffic_C4_thresholds.2.2.2.2.1 25000 (by norm_num),
    traffic_C4_thresholds.1 2999 (by norm_num),
    traffic_C4_thresholds.2.2.2.2.2.2.2.2.2.2 exTD "MAIN ST" 5000 (by decide),
    by decide⟩

/-- C9: the confidence of a route adjustment is exactly the function
confidenceOf of streets_matched (high iff at least 5 contributed, medium
iff at least 2 and fewer than 5, low otherwise), independent of the
multiplier values. -/
theorem traffic_C9_confidence (td : TrafficData) (steps : List RouteStep) :
    (calculate_route_adjustment td steps).confidence
      = confidenceOf (calculate_route_adjustment td steps).streets_matched ∧
    (∀ n : ℕ,
      (confidenceOf n = Confidence.high ↔ 5 ≤ n) ∧
      (confidenceOf n = Confidence.medium ↔ 2 ≤ n ∧ n < 5) ∧
      (confidenceOf n = Confidence.low ↔ n < 2)) := by
  constructor
  · rcases calculate_route_adjustment_shape td steps with h | ⟨_, h⟩
    · rw [h]; rfl
    · rw [h]
  · intro n
    unfold confidenceOf
    by_cases h5 : 5 ≤ n
    · rw [if_pos h5]
      refine ⟨by simp [h5], ?_, ?_⟩ <;> simp <;> omega
    · rw [if_neg h5]
      by_cases h2 : 2 ≤ n
      · rw [if_pos h2]
        refine ⟨?_, by simp; omega, ?_⟩ <;> simp <;> omega
      · rw [if_neg h2]
        refine ⟨?_, ?_, by simp; omega⟩ <;> simp <;> omega

theorem traffic_C9_witness :
    (calculate_route_adjustment exTD exSteps).confidence
      = confidenceOf (calculate_route_adjustment exTD exSteps).streets_matched ∧
    (confidenceOf 2 = Confidence.medium ↔ 2 ≤ 2 ∧ 2 < 5) :=
  ⟨(traffic_C9_confidence exTD exSteps).1,
   ((traffic_C9_confidence exTD exSteps).2 2).2.1⟩

/-- C10: for every input, the result of calculate_route_adjustment has
streets_matched equal to the length of street_details, every detail
carries a non-unknown level with the multiplier of the fixed table, and
the route multiplier lies between 0.90 and 1.30. -/
theorem traffic_C10_invariant (td : TrafficData) (steps : List RouteStep) :
    (calculate_route_adjustment td steps).streets_matched
      = (calculate_route_adjustment td steps).street_details.length ∧
    (∀ d ∈ (calculate_route_adjustment td steps).street_details,
      d.level ≠ TrafficLevel.unknown ∧ d.multiplier = CONGESTION_MULTIPLIERS d.level) ∧
    90/100 ≤ (calculate_route_adjustment td steps).multiplier ∧
    (calculate_route_adjustment td steps).multiplier ≤ 130/100 := by
  rcases calculate_route_adjustment_shape td steps with h | ⟨hne, h⟩
  · rw [h]
    refine ⟨rfl, ?_, by norm_num, by norm_num⟩
    intro d hd
    simp at hd
  · rw [h]
    refine ⟨?_, ?_, ?_, ?_⟩
    · show (routeMultipliers td steps).length = (collectDetails td steps).length
      unfold routeMultipliers
      exact List.length_map _ _
    · intro d hd
      exact mem_collectDetails hd
    · exact (pyRound3_mem (meanQ_mem hne routeMultipliers_bounds).1
        (meanQ_mem hne routeMultipliers_bounds).2).1
    · exact (pyRound3_mem (meanQ_mem hne routeMultipliers_bounds).1
        (meanQ_mem hne routeMultipliers_bounds).2).2

theorem traffic_C10_witness :
    (calculate_route_adjustment exTD exSteps).streets_matched
      = (calculate_route_adjustment exTD exSteps).street_details.length ∧
    90/100 ≤ (calculate_route_adjustment exTD exSteps).multiplier ∧
    (calculate_route_adjustment exTD exSteps).multiplier ≤ 130/100 := by
  obtain ⟨h1, _, h3, h4⟩ := traffic_C10_invariant exTD exSteps
  exact ⟨h1, h3, h4⟩

end Traffic

namespace Traffic

theorem keyLE_search_imp {q : String} {a b : SearchEntry}
    (h : keyLE (searchKey q a) (searchKey q b) = true) :
    (isPrefOf q.data b.street_name.data = true → isPrefOf q.data a.street_name.data = true) ∧
    (isPrefOf q.data a.street_name.data = isPrefOf q.data b.street_name.data →
      b.avg_count ≤ a.avg_count) := by
  unfold keyLE searchKey at h
  by_cases ha : isPrefOf q.data a.street_name.data = true
  · by_cases hb : isPrefOf q.data b.street_name.data = true
    · simp [ha, hb] at h
      refine ⟨fun _ => ha, fun _ => ?_⟩
      omega
    · exact ⟨fun hbb => absurd hbb hb, fun heq => by rw [ha] at heq; exact absurd heq.symm hb⟩
  · by_cases hb : isPrefOf q.data b.street_name.data = true
    · simp [ha, hb] at h
    · simp [ha, hb] at h
      refine ⟨fun hbb => absurd hbb hb, fun _ => ?_⟩
      omega

/-- C2 counterexample: the raw names MAIN STREET and MAIN ST normalize to
the same string, yet the built index holds two separate entries (each of
sample size 1) keyed by the cleaned, unnormalized names. -/
theorem traffic_C2_counterexample :
    _normalize_street_name "MAIN STREET" = _normalize_street_name "MAIN ST" ∧
    (_build_street_index false (_load_data c2Records)).length = 2 ∧
    lookupA "MAIN ST" (_build_street_index false (_load_data c2Records))
      = some ⟨7, 7, 7, 1⟩ ∧
    lookupA "MAIN STREET" (_build_street_index false (_load_data c2Records))
      = some ⟨5, 5, 5, 1⟩ := by
  exact ⟨by decide, by decide, by decide, by decide⟩

/-- C2 amended: the street index is keyed by the loader-cleaned
(upper-cased, trimmed) street name, not by the fully normalized name:
every cleaned name of the loaded data is a key, its entry aggregates
exactly the records sharing that cleaned name, and nothing else is a key.
Suffix abbreviation applies only to lookup queries. -/
theorem traffic_C2_index_by_cleaned_name (b : Bool) (raws : List RawRecord) (k : String) :
    (k ∈ (_load_data raws).map (fun r => r.street_name) →
      lookupA k (_build_street_index b (_load_data raws))
        = some (buildEntry b (groupFor (_load_data raws) k))) ∧
    (k ∉ (_load_data raws).map (fun r => r.street_name) →
      lookupA k (_build_street_index b (_load_data raws)) = none) ∧
    (∀ r ∈ raws,
      cleanName r.street_name ∈ (_load_data raws).map (fun r => r.street_name)) := by
  have hlk := lookupA_street_index ⟨b, _load_data raws⟩ k
  refine ⟨fun hmem => ?_, fun hmem => ?_, fun r hr => ?_⟩
  · rw [show lookupA k (_build_street_index b (_load_data raws))
        = lookupA k (TrafficData.street_index ⟨b, _load_data raws⟩) from rfl, hlk]
    rw [if_pos hmem]
  · rw [show lookupA k (_build_street_index b (_load_data raws))
        = lookupA k (TrafficData.street_index ⟨b, _load_data raws⟩) from rfl, hlk]
    rw [if_neg hmem]
  · have : (_load_data raws).map (fun r => r.street_name)
        = raws.map (fun r => cleanName r.street_name) := by
      unfold _load_data
      rw [List.map_map]
      rfl
    rw [this]
    exact List.mem_map_of_mem (fun r => cleanName r.street_name) hr

theorem traffic_C2_witness :
    "MAIN ST" ∈ (_load_data c2Records).map (fun r => r.street_name) ∧
    lookupA "MAIN ST" (_build_street_index false (_load_data c2Records))
      = some (buildEntry false (groupFor (_load_data c2Records) "MAIN ST")) ∧
    "ELM AV" ∉ (_load_data c2Records).map (fun r => r.street_name) ∧
    lookupA "ELM AV" (_build_street_index false (_load_data c2Records)) = none :=
  ⟨by decide,
   (traffic_C2_index_by_cleaned_name false c2Records "MAIN ST").1 (by decide),
   by decide,
   (traffic_C2_index_by_cleaned_name false c2Records "ELM AV").2.1 (by decide)⟩

/-- C3 counterexample: with a non-empty index, classify on the empty
street name does not return the unknown sentinel: the empty string
substring-matches every key, so the empty query classifies the mean of
all indexed averages (here: low at count 5000). -/
theorem traffic_C3_counterexample :
    c3TD.street_index ≠ [] ∧
    get_traffic_level c3TD "" = (TrafficLevel.low, mkRat 95 100, some 5000) ∧
    get_traffic_level c3TD "" ≠ (TrafficLevel.unknown, 1, none) := by
  exact ⟨by decide, by decide, by decide⟩

/-- C3 amended: empty instruction text yields zero candidates and empty
steps yield the identity result, without raising; classify on an empty
street name returns (unknown, 1.0, null) when the dataset is empty, but
with a non-empty index the empty string substring-matches every key, so
classify returns a non-unknown classification. -/
theorem traffic_C3_empty_inputs (td : TrafficData) :
    _extract_street_from_instruction "" = [] ∧
    calculate_route_adjustment td [] = ⟨1, Confidence.low, 0, []⟩ ∧
    (td.traffic_df = [] → get_traffic_level td "" = (TrafficLevel.unknown, 1, none)) ∧
    (td.traffic_df ≠ [] → (get_traffic_level td "").1 ≠ TrafficLevel.unknown) := by
  refine ⟨rfl, rfl, fun he => ?_, fun hne => ?_⟩
  · apply get_traffic_level_unknown_of_none
    unfold get_traffic_count
    rw [if_pos he]
  · obtain ⟨c, hc⟩ := get_traffic_count_empty_street hne
    rw [get_traffic_level_of_some hc]
    exact levelOfCount_ne_unknown c

theorem traffic_C3_witness :
    calculate_route_adjustment c3TD [] = ⟨1, Confidence.low, 0, []⟩ ∧
    _extract_street_from_instruction "" = [] ∧
    get_traffic_level emptyTD "" = (TrafficLevel.unknown, 1, none) ∧
    (get_traffic_level c3TD "").1 ≠ TrafficLevel.unknown :=
  ⟨(traffic_C3_empty_inputs c3TD).2.1,
   (traffic_C3_empty_inputs c3TD).1,
   (traffic_C3_empty_inputs emptyTD).2.2.1 rfl,
   (traffic_C3_empty_inputs c3TD).2.2.2 (by decide)⟩

/-- C5 counterexample: a group of four records with no parsed date at
all, in a dataset that has a date column.  The claim's reading (no
recency signal, so average over the whole group) gives 40; the code still
takes the first three rows of the NaT-last sort and returns 20. -/
theorem traffic_C5_counterexample :
    (∀ r ∈ c5Records, r.date_count = none) ∧
    lookupA "A ST" (_build_street_index true c5Records) = some ⟨20, 100, 10, 4⟩ ∧
    meanQ (c5Records.map (fun r => r.total_count)) = 40 ∧
    (20 : ℚ) ≠ 40 := by
  exact ⟨by decide, by decide, by decide, by decide⟩

/-- C5 amended: the 3-record recency window applies whenever the dataset
has a date column (dated rows first, descending, undated rows after them
in file order), not merely when the group has a parsed date; without the
column the average is over the whole group.  max, min and sample size
always range over the whole group, and a singleton group yields
average = min = max = its value. -/
theorem traffic_C5_recency_window (b : Bool) (g : List RawRecord) :
    (∀ r : RawRecord, buildEntry b [r] = ⟨r.total_count, r.total_count, r.total_count, 1⟩) ∧
    (buildEntry false g).avg_count = meanQ (g.map (fun r => r.total_count)) ∧
    ((∀ r ∈ g, r.date_count.isSome = true) →
      List.Pairwise (fun x y => y.date_count.getD 0 ≤ x.date_count.getD 0) g →
      (buildEntry true g).avg_count = meanQ ((g.take 3).map (fun r => r.total_count))) ∧
    (buildEntry b g).sample_size = g.length ∧
    (∀ r ∈ g, (buildEntry b g).min_count ≤ r.total_count ∧
      r.total_count ≤ (buildEntry b g).max_count) := by
  refine ⟨fun r => buildEntry_singleton b r, rfl, fun hs hp => ?_, rfl, fun r hr => ?_⟩
  · unfold buildEntry
    rw [sortByDateDesc_of_sorted hs hp]
    simp
  · exact minQ_le_maxQ (List.mem_map_of_mem (fun r => r.total_count) hr)

theorem traffic_C5_witness :
    buildEntry true [⟨"C RD", 42, some 3⟩]
      = ⟨42, 42, 42, 1⟩ ∧
    (∀ r ∈ c5bRecords, r.date_count.isSome = true) ∧
    (buildEntry true c5bRecords).avg_count
      = meanQ ((c5bRecords.take 3).map (fun r => r.total_count)) ∧
    (buildEntry true c5bRecords).avg_count = 4 ∧
    (buildEntry false c5bRecords).avg_count = meanQ (c5bRecords.map (fun r => r.total_count)) :=
  ⟨(traffic_C5_recency_window true []).1 ⟨"C RD", 42, some 3⟩,
   by decide,
   (traffic_C5_recency_window true c5bRecords).2.2.1 (by decide) (by decide),
   by decide,
   (traffic_C5_recency_window false c5bRecords).2.1⟩

/-- C6: a street that matches no index key exactly and none by the
substring fallback classifies to exactly (unknown, 1.0, null); and with
an empty dataset, stats reports the no-data sentinel and every classify
call returns the unknown sentinel. -/
theorem traffic_C6_unknown_sentinel :
    (∀ (td : TrafficData) (s : String),
      lookupA (_normalize_street_name s) td.street_index = none →
      td.street_index.filter (fun p =>
        strContains p.1 (_normalize_street_name s)
          || strContains (_normalize_street_name s) p.1) = [] →
      get_traffic_level td s = (TrafficLevel.unknown, 1, none)) ∧
    (∀ td : TrafficData, td.traffic_df = [] →
      get_stats td = none ∧
      ∀ s : String, get_traffic_level td s = (TrafficLevel.unknown, 1, none)) := by
  constructor
  · intro td s h1 h2
    apply get_traffic_level_unknown_of_none
    unfold get_traffic_count
    by_cases he : td.traffic_df = []
    · rw [if_pos he]
    · rw [if_neg he]
      simp only [h1, h2, List.map_nil]
      rfl
  · intro td he
    constructor
    · unfold get_stats
      rw [if_pos he]
    · intro s
      apply get_traffic_level_unknown_of_none
      unfold get_traffic_count
      rw [if_pos he]

theorem traffic_C6_witness :
    get_traffic_level exTD "ZZZQX" = (TrafficLevel.unknown, 1, none) ∧
    get_stats emptyTD = none ∧
    get_traffic_level emptyTD "MAIN ST" = (TrafficLevel.unknown, 1, none) :=
  ⟨traffic_C6_unknown_sentinel.1 exTD "ZZZQX" (by decide) (by decide),
   (traffic_C6_unknown_sentinel.2 emptyTD rfl).1,
   (traffic_C6_unknown_sentinel.2 emptyTD rfl).2 "MAIN ST"⟩

/-- C7: street-name normalization is idempotent: normalizing an already
normalized name changes nothing, for every input string. -/
theorem traffic_C7_normalize_idempotent (s : String) :
    _normalize_street_name (_normalize_street_name s) = _normalize_street_name s := by
  show String.mk (normalizeL (String.mk (normalizeL s.data)).data) = String.mk (normalizeL s.data)
  rw [show (String.mk (normalizeL s.data)).data = normalizeL s.data from rfl, normalizeL_idem]

/-- C8: for a non-empty query and any limit, search returns at most
limit entries; every returned entry is an index entry whose key contains
the upper-cased query as a substring (with the rounded average and the
sample size of that entry); and the sequence is ordered with
prefix-matching keys first and, within the same prefix status, by
descending average count. -/
theorem traffic_C8_search (td : TrafficData) (query : String) (limit : ℕ)
    (hq : query ≠ "") :
    (search_streets td query limit).length ≤ limit ∧
    (∀ e ∈ search_streets td query limit,
      ∃ p ∈ td.street_index,
        e.street_name = p.1 ∧
        strContains p.1 (String.mk (pyUpper query.data)) = true ∧
        e.avg_count = roundHalfEven p.2.avg_count ∧
        e.sample_size = p.2.sample_size) ∧
    List.Pairwise (fun a b =>
      (isPrefOf (pyUpper query.data) b.street_name.data = true →
        isPrefOf (pyUpper query.data) a.street_name.data = true) ∧
      (isPrefOf (pyUpper query.data) a.street_name.data
          = isPrefOf (pyUpper query.data) b.street_name.data →
        b.avg_count ≤ a.avg_count)) (search_streets td query limit) := by
  unfold search_streets
  by_cases he : td.traffic_df = []
  · simp only [he, if_true]
    refine ⟨by simp, by intro e hee; simp at hee, ?_⟩
    simp
  · have hcond : (td.traffic_df = [] || query = "") = false := by
      simp [he, hq]
    rw [hcond]
    simp only [Bool.false_eq_true, if_false]
    refine ⟨List.length_take_le limit _, ?_, ?_⟩
    · intro e he2
      have he3 := mem_sortSearch (List.mem_of_mem_take he2)
      obtain ⟨p, hp, hpe⟩ := List.mem_filterMap.mp he3
      by_cases hc : strContains p.1 (String.mk (pyUpper query.data)) = true
      · rw [if_pos hc] at hpe
        injection hpe with hpe
        refine ⟨p, hp, ?_, hc, ?_, ?_⟩ <;> rw [hpe.symm]
      · rw [if_neg hc] at hpe
        exact absurd hpe (by simp)
    · apply List.Pairwise.sublist (List.take_sublist limit _)
      apply List.Pairwise.imp ?_ (sortSearch_pairwise (String.mk (pyUpper query.data)) _)
      intro a b hab
      exact keyLE_search_imp hab

theorem traffic_C8_witness :
    "MAIN" ≠ "" ∧
    (search_streets exTD "MAIN" 5).length ≤ 5 ∧
    search_streets exTD "MAIN" 5
      = [⟨"MAIN ST", 5000, TrafficLevel.low, 1⟩] :=
  ⟨by decide, (traffic_C8_search exTD "MAIN" 5 (by decide)).1, by decide⟩

end Traffic
